import Mathlib

/-!
Verification development for the AVM1 dynamic-object runtime
(`core/src/avm1/object/script_object.rs`) and the Array built-ins
(`core/src/avm1/globals/array.rs`).

The embedding translates the Rust source into Lean definitions.  Pieces of
the repository that are referenced but whose source files are not part of
the excerpt (the `Property` / `PropertyMap` / `Attribute` module, the
prototype-walking `TObject::get`, and the external coercion layer) are
modelled from the specification; each such definition carries a doc
comment starting with `Modelled from the spec:`.

Machine values: the AVM1 `Value::Number` variant carries an `f64`.  The
properties verified here never depend on floating-point semantics (the
numbers involved are small integers used as opaque data), so the number
payload is embedded as `Int`.
-/

namespace Avm1

/-- Object references (`Object<'gc>` pointers) are embedded as opaque
numeric identifiers. -/
abbrev ObjId := Nat

/-- The AVM1 `Value` tagged union (spec §3).  `Number(f64)` is embedded
with an `Int` payload (see the header comment). -/
inductive Value where
  | undefined : Value
  | null : Value
  | boolean (b : Bool) : Value
  | number (n : Int) : Value
  | str (s : String) : Value
  | object (o : ObjId) : Value
deriving DecidableEq, Repr

/-- The AVM1 error channel.  `Error::ThrownValue` is the one failure kind
that propagates to scripts; every other `Error` variant is collapsed into
`other`, which is all `get_local`/`set_local` ever distinguish
(`Err(Error::ThrownValue(e)) => ...` vs `Err(_) => ...`). -/
inductive Error where
  | thrownValue (v : Value) : Error
  | other : Error
deriving DecidableEq, Repr

/-- Modelled from the spec: `Attribute` bit flags (§3): `DONT_ENUM`,
`DONT_DELETE`, `READ_ONLY`, combinable. -/
structure Attribute where
  dontEnum : Bool
  dontDelete : Bool
  readOnly : Bool
deriving DecidableEq, Repr

def Attribute.empty : Attribute := ⟨false, false, false⟩

def Attribute.dontEnumOnly : Attribute := ⟨true, false, false⟩

/-- The narrow callable contract (spec §6): an object either is not
executable, or exposes
`exec(label, context, receiver, base_prototype, args) -> Result<Value, Failure>`.
The label/context arguments carry no information used by the claims, so an
executable is embedded as a function of `(receiver, base_prototype, args)`.
Callback side effects on the object graph are outside this model
(re-entrancy, spec §5). -/
structure FuncObj where
  execFn : Option (ObjId → Option ObjId → List Value → Except Error Value)

/-- Modelled from the spec: `Property` (§3, §4.2): one slot is either a
stored value or a virtual accessor pair, both carrying attributes. -/
inductive Property where
  | stored (value : Value) (attributes : Attribute) : Property
  | virtualProp (get : FuncObj) (set : Option FuncObj) (attributes : Attribute) : Property

def Property.attributes : Property → Attribute
  | .stored _ a => a
  | .virtualProp _ _ a => a

/-- Modelled from the spec: `is_enumerable() = !attributes.DONT_ENUM` (§4.2). -/
def Property.isEnumerable (p : Property) : Bool := !p.attributes.dontEnum

/-- Modelled from the spec: `can_delete() = !attributes.DONT_DELETE` (§4.2). -/
def Property.canDelete (p : Property) : Bool := !p.attributes.dontDelete

def Property.isVirtual : Property → Bool
  | .stored _ _ => false
  | .virtualProp _ _ _ => true

/-- Modelled from the spec: `Property::set(value) -> Option<Object>`
(§4.2 together with the §3 `READ_ONLY` semantics "writes silently
ignored", confirmed by the repository's `test_set_readonly`): for a
Stored slot the value is mutated in place unless `READ_ONLY` is present,
and `None` is returned; for a Virtual slot nothing is stored and the
setter object (if any) is returned for the caller to invoke. -/
def Property.set (p : Property) (v : Value) : Property × Option FuncObj :=
  match p with
  | .stored old attrs =>
      (if attrs.readOnly then .stored old attrs else .stored v attrs, none)
  | .virtualProp g s attrs => (.virtualProp g s attrs, s)

/-- `Watcher` (script_object.rs lines 20-33): a pre-set interceptor
callback together with its user data. -/
structure Watcher where
  callback : FuncObj
  userData : Value

/-- Modelled from the spec: the ASCII-style case folding used by the
legacy engine's case-insensitive lookup (§4.1). -/
def foldAsciiChar (c : Char) : Char :=
  if 'A' ≤ c ∧ c ≤ 'Z' then Char.ofNat (c.toNat + 32) else c

def foldCaseStr (s : String) : String := s.map foldAsciiChar

/-- Modelled from the spec: the `PropertyMap` name-matching policy
(§4.1): exact match when case-sensitive, ASCII case folding otherwise. -/
def keyMatches (caseSensitive : Bool) (a b : String) : Bool :=
  if caseSensitive then a == b else foldCaseStr a == foldCaseStr b

/-- Modelled from the spec: `PropertyMap<V>` (§3, §4.1) is an
insertion-ordered mapping embedded as an association list (iteration
order = list order = insertion order, keys unique as an invariant). -/
abbrev PropertyMap (V : Type) := List (String × V)

/-- Modelled from the spec: `PropertyMap::get` — first entry whose key
matches under the case policy. -/
def propMapGet {V : Type} (m : PropertyMap V) (name : String) (cs : Bool) : Option V :=
  (m.find? (fun e => keyMatches cs e.1 name)).map Prod.snd

/-- Modelled from the spec: `PropertyMap::contains_key`. -/
def propMapContains {V : Type} (m : PropertyMap V) (name : String) (cs : Bool) : Bool :=
  m.any (fun e => keyMatches cs e.1 name)

/-- Modelled from the spec: `PropertyMap::remove` — removes the (unique)
matching slot, preserving the order of the others. -/
def propMapRemove {V : Type} (m : PropertyMap V) (name : String) (cs : Bool) : PropertyMap V :=
  match m with
  | [] => []
  | e :: rest =>
      if keyMatches cs e.1 name then rest else e :: propMapRemove rest name cs

/-- Modelled from the spec: `PropertyMap::insert` — an existing slot (any
case variant under the policy) is reused, keeping the original casing of
the first insertion and its position; otherwise the new entry is appended
(insertion order). -/
def propMapInsert {V : Type} (m : PropertyMap V) (name : String) (v : V) (cs : Bool) :
    PropertyMap V :=
  match m with
  | [] => [(name, v)]
  | e :: rest =>
      if keyMatches cs e.1 name then (e.1, v) :: rest
      else e :: propMapInsert rest name v cs

/-- `ArrayStorage` (script_object.rs lines 13-18): dense `Vector`
representation vs. bare `Properties { length }` counter. -/
inductive ArrayStorage where
  | vector (elements : List Value) : ArrayStorage
  | properties (length : Nat) : ArrayStorage
deriving DecidableEq

/-- `ScriptObjectData` (script_object.rs lines 74-83).  The `type_of` tag
and `interfaces` list are omitted: no claim mentions them.  `oid` stands
for the object's `GcCell` identity (`(*self).into()`), used when the
object itself is passed as a receiver or base prototype.  The prototype
chain is passed explicitly (as a linearized list) to the operations that
walk it, so `prototype` stores only the `Value`-typed link (spec §3). -/
structure ScriptObject where
  oid : ObjId
  prototype : Value
  values : PropertyMap Property
  watchers : PropertyMap Watcher
  array : ArrayStorage

/-- `Watcher::call` (script_object.rs lines 35-67): invokes the callback
with positional arguments `[name, old_value, new_value, user_data]`; a
non-invocable callback returns `Undefined` without side effects. -/
def watcherCall (w : Watcher) (name : String) (oldValue newValue : Value)
    (this : ObjId) (baseProto : Option ObjId) : Except Error Value :=
  match w.callback.execFn with
  | some f => f this baseProto [Value.str name, oldValue, newValue, w.userData]
  | none => Except.ok Value.undefined

/-- `ScriptObject::get_local` (script_object.rs lines 221-256): `none`
when the name has no slot — or when the slot is Virtual but its getter is
not executable; a Stored slot returns its value immediately; an
executable getter runs with `this = receiver` and
`base_proto = Some(self)`, a thrown failure propagates, and any other
getter failure degrades to `Ok(Undefined)`. -/
def getLocal (o : ScriptObject) (name : String) (cs : Bool) (receiver : ObjId) :
    Option (Except Error Value) :=
  match propMapGet o.values name cs with
  | some (Property.stored v _) => some (Except.ok v)
  | some (Property.virtualProp g _ _) =>
      match g.execFn with
      | some f =>
          some (match f receiver (some o.oid) [] with
            | Except.ok v => Except.ok v
            | Except.error (Error.thrownValue e) => Except.error (Error.thrownValue e)
            | Except.error Error.other => Except.ok Value.undefined)
      | none => none
  | none => none

/-- Modelled from the spec: the prototype-walking `TObject::get` (§4.5,
§2 control flow): the chain (self first) is searched with `get_local`
using the original object as receiver; `None` from one link continues up
the chain; a chain exhausted without a hit yields `Undefined`. -/
def getChain (chain : List ScriptObject) (name : String) (cs : Bool) (receiver : ObjId) :
    Except Error Value :=
  match chain with
  | [] => Except.ok Value.undefined
  | o :: rest =>
      match getLocal o name cs receiver with
      | some r => r
      | none => getChain rest name cs receiver

/-- The `values.entry(name, cs)` upsert inside `set_local`
(script_object.rs lines 290-304): an occupied slot goes through
`Property::set` in place (possibly yielding a setter); a vacant name
appends a new Stored slot with empty attributes. -/
def propEntryUpsert (entries : PropertyMap Property) (name : String) (v : Value) (cs : Bool) :
    PropertyMap Property × Option FuncObj :=
  match entries with
  | [] => ([(name, Property.stored v Attribute.empty)], none)
  | (k, p) :: rest =>
      if keyMatches cs k name then
        ((k, (Property.set p v).1) :: rest, (Property.set p v).2)
      else
        ((k, p) :: (propEntryUpsert rest name v cs).1, (propEntryUpsert rest name v cs).2)

/-- Steps 2-4 of `set_local` (script_object.rs lines 290-322): upsert the
pair, then, if a setter object was yielded and is executable, invoke it
with `[value]`; a thrown failure from the setter is returned immediately,
every other setter outcome leaves the tentative `result` in force. -/
def setLocalStore (o : ScriptObject) (name : String) (value : Value) (cs : Bool)
    (this : ObjId) (baseProto : Option ObjId) (result : Except Error Unit) :
    ScriptObject × Except Error Unit :=
  let up := propEntryUpsert o.values name value cs
  let o' := { o with values := up.1 }
  match up.2 with
  | some setter =>
      match setter.execFn with
      | some f =>
          match f this baseProto [value] with
          | Except.error (Error.thrownValue e) => (o', Except.error (Error.thrownValue e))
          | _ => (o', result)
      | none => (o', result)
  | none => (o', result)

/-- `ScriptObject::set_local` (script_object.rs lines 263-323).  The
prototype chain tail `protos` is the linearization of the object's
prototype links, consumed by the `self.get(name, activation)?` read of
the old value in the watcher step (the `?` aborts the whole call on a
thrown failure from that read). -/
def setLocal (o : ScriptObject) (protos : List ScriptObject) (name : String)
    (value0 : Value) (cs : Bool) (this : ObjId) (baseProto : Option ObjId) :
    ScriptObject × Except Error Unit :=
  match propMapGet o.watchers name cs with
  | some w =>
      match getChain (o :: protos) name cs o.oid with
      | Except.error e => (o, Except.error e)
      | Except.ok oldValue =>
          match watcherCall w name oldValue value0 this baseProto with
          | Except.ok v => setLocalStore o name v cs this baseProto (Except.ok ())
          | Except.error (Error.thrownValue e) =>
              setLocalStore o name Value.undefined cs this baseProto
                (Except.error (Error.thrownValue e))
          | Except.error Error.other =>
              setLocalStore o name Value.undefined cs this baseProto (Except.ok ())
  | none => setLocalStore o name value0 cs this baseProto (Except.ok ())

/-- `ScriptObject::delete` (script_object.rs lines 376-386): `false` if
the name is absent or the slot refuses deletion, else the slot is removed
and `true` is returned. -/
def deleteProp (o : ScriptObject) (name : String) (cs : Bool) : ScriptObject × Bool :=
  match propMapGet o.values name cs with
  | some p =>
      if p.canDelete then ({ o with values := propMapRemove o.values name cs }, true)
      else (o, false)
  | none => (o, false)

/-- The local enumerable keys of one object, in map insertion order
(the second `extend` of `get_keys`). -/
def localEnumKeys (o : ScriptObject) : List String :=
  o.values.filterMap (fun kp => if kp.2.isEnumerable then some kp.1 else none)

/-- `ScriptObject::get_keys` (script_object.rs lines 544-570) over a
linearized prototype chain (self first): the prototype's keys filtered by
"not defined locally at all", then the local enumerable keys. -/
def getKeys (chain : List ScriptObject) (cs : Bool) : List String :=
  match chain with
  | [] => []
  | o :: rest =>
      (getKeys rest cs).filter (fun k => !(propMapContains o.values k cs)) ++
        localEnumKeys o

/-- `ScriptObject::sync_native_property` (script_object.rs lines
176-209).  The Rust code calls `values.entry(name, false)`, i.e. with the
case-sensitivity flag off, so the embedding passes `false` through
`keyMatches`.  An occupied Stored slot
is updated (or removed when the native value is `None`); an occupied
Virtual slot is left alone; a vacant name inserts a Stored slot when a
value is supplied, enumerable or `DONT_ENUM` per the flag. -/
def syncEntries (entries : PropertyMap Property) (name : String)
    (nativeValue : Option Value) (isEnum : Bool) : PropertyMap Property :=
  match entries with
  | [] =>
      match nativeValue with
      | some v =>
          [(name, Property.stored v (if isEnum then Attribute.empty else Attribute.dontEnumOnly))]
      | none => []
  | (k, p) :: rest =>
      if keyMatches false k name then
        match p with
        | Property.stored _ attrs =>
            match nativeValue with
            | none => rest
            | some v => (k, Property.stored v attrs) :: rest
        | Property.virtualProp g s a => (k, Property.virtualProp g s a) :: rest
      else (k, p) :: syncEntries rest name nativeValue isEnum

def syncNativeProperty (o : ScriptObject) (name : String) (nativeValue : Option Value)
    (isEnum : Bool) : ScriptObject :=
  { o with values := syncEntries o.values name nativeValue isEnum }

/-- `TObject::length` (script_object.rs lines 592-597). -/
def objLength (o : ScriptObject) : Nat :=
  match o.array with
  | .vector v => v.length
  | .properties length => length

/-- `Vec::resize(n, Value::Undefined)`: truncate or pad with `Undefined`
to exactly `n` elements. -/
def listResize (l : List Value) (n : Nat) : List Value :=
  l.take n ++ List.replicate (n - l.length) Value.undefined

/-- `TObject::array_element` (script_object.rs lines 635-655): Vector
storage reads past the end yield `Undefined`; Properties storage reads
the mirrored Stored numeric property when in range. -/
def arrayElement (o : ScriptObject) (index : Nat) : Value :=
  match o.array with
  | .vector v => v.getD index Value.undefined
  | .properties length =>
      if index < length then
        match propMapGet o.values (toString index) false with
        | some (Property.stored v _) => v
        | _ => Value.undefined
      else Value.undefined

/-- `TObject::set_array_element` (script_object.rs lines 657-680): the
numeric-string mirror property is synced first; Vector storage grows
(padding with `Undefined`) when writing past the end and re-syncs
`"length"`; Properties storage only returns the counter. -/
def setArrayElement (o : ScriptObject) (index : Nat) (value : Value) :
    ScriptObject × Nat :=
  let o1 := syncNativeProperty o (toString index) (some value) true
  match o1.array with
  | .vector vec =>
      let vec1 := if vec.length ≤ index then listResize vec (index + 1) else vec
      let vec2 := vec1.set index value
      let len := vec2.length
      let o2 := { o1 with array := ArrayStorage.vector vec2 }
      (syncNativeProperty o2 "length" (some (Value.number (Int.ofNat len))) false, len)
  | .properties length => (o1, length)

/-- `TObject::delete_array_element` (script_object.rs lines 682-688):
Vector storage overwrites an in-range element with `Undefined`. -/
def deleteArrayElement (o : ScriptObject) (index : Nat) : ScriptObject :=
  match o.array with
  | .vector v => { o with array := ArrayStorage.vector (v.set index Value.undefined) }
  | .properties _ => o

/-- `TObject::set_length` (script_object.rs lines 599-620): Vector
storage resizes (padding with `Undefined`), removes the mirror properties
of a truncated range, and re-syncs `"length"`; Properties storage moves
the counter and re-syncs `"length"`. -/
def setLength (o : ScriptObject) (newLength : Nat) : ScriptObject :=
  let o1 :=
    match o.array with
    | .vector vec =>
        let oldLength := vec.length
        let o' := { o with array := ArrayStorage.vector (listResize vec newLength) }
        if newLength < oldLength then
          (List.range' newLength (oldLength - newLength)).foldl
            (fun acc i => syncNativeProperty acc (toString i) none true) o'
        else o'
    | .properties _ => { o with array := ArrayStorage.properties newLength }
  syncNativeProperty o1 "length" (some (Value.number (Int.ofNat newLength))) false

/-- `TObject::array` (script_object.rs lines 622-633): materializes a
snapshot of the elements. -/
def materializeArray (o : ScriptObject) : List Value :=
  match o.array with
  | .vector v => v
  | .properties length => (List.range length).map (fun i => arrayElement o i)

/-- `ScriptObject::array` factory (script_object.rs lines 114-131): a
fresh Vector-storage object whose `"length"` non-enumerable Stored
property is pre-synced to 0.  The prototype link of the real factory
points at the Array prototype object; it is inert for the properties
proved here and left `Undefined`. -/
def newArrayObject (oid : ObjId) : ScriptObject :=
  { oid := oid
    prototype := Value.undefined
    values := [("length", Property.stored (Value.number 0) Attribute.dontEnumOnly)]
    watchers := []
    array := ArrayStorage.vector [] }

/-!  ## The Array standard-library layer (`globals/array.rs`)  -/

/-- `make_index_absolute` (array.rs lines 284-291): a negative index is
`length.saturating_sub(|index|)` (Lean's `Nat` subtraction saturates),
a non-negative one is `min(index as usize, length)`.  The Rust parameter
is an `i32`; the embedding takes `Int` and the theorems restrict to the
`i32` range. -/
def makeIndexAbsolute (index : Int) (length : Nat) : Nat :=
  if index < 0 then length - (-index).toNat
  else min index.toNat length

/-- `SortFlags` (array.rs lines 12-21). -/
structure SortFlags where
  caseInsensitive : Bool
  descending : Bool
  uniqueSort : Bool
  returnIndexedArray : Bool
  numeric : Bool
deriving DecidableEq, Repr

def SortFlags.empty : SortFlags := ⟨false, false, false, false, false⟩

/-- The comparison closure that `sort_with_function` hands to
`Vec::sort_unstable_by` (array.rs lines 606-615): the caller-supplied
comparator on the `Value` components of the `(original index, value)`
pairs, with its result reversed under `DESCENDING` (`ret.reverse()`). -/
def wrappedCmp (cmp : Value → Value → Ordering) (flags : SortFlags)
    (a b : Nat × Value) : Ordering :=
  let r := cmp a.2 b.2
  if flags.descending then r.swap else r

/-- One insertion step of the sorting pass, on the *reversed* sorted
prefix (largest element first), mirroring `core::slice::sort`'s
`shift_tail`: the new element is compared against the prefix from its
largest element downward, moving left while the comparison yields `lt`,
and stopping at the first element it is not less than.  Each comparison
runs the full `Ordering` closure, so an observed `eq` anywhere records a
tie (the closure's `is_unique = false` assignment).  Returns the new
reversed prefix and whether a tie was observed. -/
def insertRev {α : Type} (ord : α → α → Ordering) (x : α) :
    List α → List α × Bool
  | [] => ([x], false)
  | y :: ys =>
      let c := ord x y
      if c = Ordering.lt then
        let r := insertRev ord x ys
        (y :: r.1, r.2)
      else (x :: y :: ys, c = Ordering.eq)

def sortPassAux {α : Type} (ord : α → α → Ordering) :
    List α → Bool → List α → List α × Bool
  | acc, tie, [] => (acc, tie)
  | acc, tie, x :: xs =>
      let r := insertRev ord x acc
      sortPassAux ord r.1 (tie || r.2) xs

/-- The sorting pass of `sort_with_function` (array.rs lines 605-615):
`values.sort_unstable_by(...)` together with the tie observation made by
the closure.  Rust's `sort_unstable_by` runs `core::slice::sort`'s
insertion sort verbatim on every slice of at most 20 elements (its
`MAX_INSERTION` threshold), which is the algorithm embedded here; the
tie flag is the disjunction of `= eq` over the comparisons the pass
performs.  For longer slices the routine runs pdqsort instead, whose
comparison sequence and equal-element order differ, so theorems about
the pass's stability and exact output are stated only for the
at-most-20-element regime; the general behavior is bounded only by the
routine's contract, `sortUnstableOutcome`. -/
def sortPass {α : Type} (ord : α → α → Ordering) (l : List α) : List α × Bool :=
  let r := sortPassAux ord [] false l
  (r.1.reverse, r.2)

/-- The three possible results of `sort_with_function`. -/
inductive SortRet where
  | retNumberZero : SortRet
  | retIndexed (arr : ScriptObject) : SortRet
  | retThis : SortRet

/-- `sort_with_function` (array.rs lines 595-643): one pass over the
enumerated `(original index, value)` pairs; `UNIQUE_SORT` plus an
observed tie aborts with the number `0` and no mutation;
`RETURN_INDEXED_ARRAY` builds a fresh array of original indices, leaving
the source untouched; otherwise the source is rewritten in place in
sorted order and returned.  Inherits `sortPass`'s insertion-sort
embedding of `sort_unstable_by`, so the sorted order and tie flag match
the program exactly on arrays of at most 20 elements (see the comment
on `sortPass` for longer arrays). -/
def sortWithFunction (o : ScriptObject) (cmp : Value → Value → Ordering)
    (flags : SortFlags) : ScriptObject × SortRet :=
  let length := objLength o
  let values := (materializeArray o).enum
  let pass := sortPass (wrappedCmp cmp flags) values
  let isUnique := !pass.2
  if flags.uniqueSort && !isUnique then (o, SortRet.retNumberZero)
  else if flags.returnIndexedArray then
    let arr := setLength (newArrayObject 0) length
    let arr2 := pass.1.enum.foldl
      (fun a p => (setArrayElement a p.1 (Value.number (Int.ofNat p.2.1))).1) arr
    (o, SortRet.retIndexed arr2)
  else
    let o' := pass.1.enum.foldl
      (fun acc p => (setArrayElement acc p.1 p.2.2).1) o
    (o', SortRet.retThis)

/-- Modelled from the spec: the external coercion layer's
string coercion (§6, §4.6), restricted to what the default sort
comparator consumes; an object's coercion re-enters script code and is
out of this model's scope. -/
def coerceToString : Value → String
  | .undefined => "undefined"
  | .null => "null"
  | .boolean true => "true"
  | .boolean false => "false"
  | .number n => toString n
  | .str s => s
  | .object _ => "[type Object]"

/-- Rust's `str` ordering (byte-wise, equivalently codepoint-wise,
lexicographic), used by `AvmString`'s `cmp`. -/
def charListCmp : List Char → List Char → Ordering
  | [], [] => Ordering.eq
  | [], _ :: _ => Ordering.lt
  | _ :: _, [] => Ordering.gt
  | a :: as, b :: bs =>
      if a.toNat < b.toNat then Ordering.lt
      else if b.toNat < a.toNat then Ordering.gt
      else charListCmp as bs

/-- `sort_compare_string` (array.rs lines 656-669): lexicographic
comparison of the coerced string forms (the error fallback of the real
coercion never fires for the value shapes used here). -/
def sortCompareString (a b : Value) : Ordering :=
  charListCmp (coerceToString a).data (coerceToString b).data

/-- The documented contract of `Vec::sort_unstable_by`, the routine the
sorting pass of `sort_with_function` delegates to (array.rs line 606):
the slice becomes some permutation of itself with no adjacent pair
comparing `Greater`.  The routine is documented as unstable ("may not
preserve the order of equal elements"), so which compliant permutation
equal elements end up in is not determined by the comparator; for
slices longer than 20 elements the algorithm is pdqsort, which does
reorder equal elements. -/
def sortUnstableOutcome {α : Type} (ord : α → α → Ordering)
    (input output : List α) : Prop :=
  List.Perm input output ∧ List.Chain' (fun a b => ord a b ≠ Ordering.gt) output

/-- `splice` (array.rs lines 330-405).  The two leading arguments arrive
already coerced to numbers (the coercion layer is external): `startArg`
is the raw start index and `countArg` the raw count (`none` when the
argument is missing, in which case the old length is used).  A negative
count returns `Undefined` without mutating.  `removedOid` stands for the
fresh allocation of the `removed` result array; object identity is inert
here.  Mirrors the source loop for loop: removed elements are copied
first, the trailing tail is shifted (descending when it moves right,
ascending otherwise), the new items are written, now-unused trailing
indices are deleted, and the length is updated. -/
def splice (o : ScriptObject) (startArg : Int) (countArg : Option Int)
    (items : List Value) (cs : Bool) : ScriptObject × Option ScriptObject :=
  let oldLength := objLength o
  let start := makeIndexAbsolute startArg oldLength
  let count : Int := countArg.getD (Int.ofNat oldLength)
  if count < 0 then (o, none)
  else
    let toRemove : Nat := (max (min count (Int.ofNat oldLength - Int.ofNat start)) 0).toNat
    let offset : Int := Int.ofNat toRemove - Int.ofNat items.length
    let newLength := oldLength + items.length - toRemove
    let removed1 := (List.range toRemove).foldl
      (fun r j => (setArrayElement r j (arrayElement o (start + j))).1) (newArrayObject 0)
    let removed2 := setLength removed1 toRemove
    let shiftIdx := List.range' (start + items.length) (newLength - (start + items.length))
    let shiftStep := fun (acc : ScriptObject) (i : Nat) =>
      (setArrayElement acc i (arrayElement acc (Int.toNat (Int.ofNat i + offset)))).1
    let o1 := if offset < 0 then shiftIdx.reverse.foldl shiftStep o
              else shiftIdx.foldl shiftStep o
    let o2 := (List.range items.length).foldl
      (fun acc i => (setArrayElement acc (start + i) (items.getD i Value.undefined)).1) o1
    let o3 := (List.range' newLength (oldLength - newLength)).foldl
      (fun acc i => (deleteProp (deleteArrayElement acc i) (toString i) cs).1) o2
    (setLength o3 newLength, some removed2)

/-- `Array` constructor, non-`Number`-argument path (array.rs lines
96-103): each argument is written at its index. -/
def arrayFromArgs (args : List Value) : ScriptObject :=
  args.enum.foldl (fun o p => (setArrayElement o p.1 p.2).1) (newArrayObject 0)

/-!  ## Helper lemmas: pointwise view of element vectors  -/

/-- Pointwise read of a `Value` list, with out-of-range reads yielding
`Undefined` exactly as `array_element` does on Vector storage. -/
def gD (l : List Value) (j : Nat) : Value := l.getD j Value.undefined

@[simp] theorem gD_nil (j : Nat) : gD [] j = Value.undefined := rfl

@[simp] theorem gD_cons_zero (a : Value) (l : List Value) : gD (a :: l) 0 = a := rfl

@[simp] theorem gD_cons_succ (a : Value) (l : List Value) (j : Nat) :
    gD (a :: l) (j + 1) = gD l j := rfl

theorem gD_of_length_le (l : List Value) (j : Nat) (h : l.length ≤ j) :
    gD l j = Value.undefined := by
  induction l generalizing j with
  | nil => simp
  | cons a t ih =>
      cases j with
      | zero => simp at h
      | succ j => simpa using ih j (by simpa using h)

theorem ext_gD (l₁ l₂ : List Value) (hlen : l₁.length = l₂.length)
    (h : ∀ j, j < l₁.length → gD l₁ j = gD l₂ j) : l₁ = l₂ := by
  induction l₁ generalizing l₂ with
  | nil => cases l₂ with
      | nil => rfl
      | cons b t => simp at hlen
  | cons a t ih =>
      cases l₂ with
      | nil => simp at hlen
      | cons b t₂ =>
          have h0 := h 0 (by simp)
          simp only [gD_cons_zero] at h0
          have ht : t = t₂ := by
            refine ih t₂ (by simpa using hlen) ?_
            intro j hj
            have := h (j + 1) (by simpa using Nat.succ_lt_succ hj)
            simpa using this
          rw [h0, ht]

theorem gD_set (l : List Value) (i j : Nat) (v : Value) :
    gD (l.set i v) j = if j = i ∧ i < l.length then v else gD l j := by
  induction l generalizing i j with
  | nil => simp [gD]
  | cons a t ih =>
      cases i with
      | zero =>
          cases j with
          | zero => simp
          | succ j => simp [Nat.succ_ne_zero]
      | succ i =>
          cases j with
          | zero => simp [List.set]
          | succ j =>
              simp only [List.set, gD_cons_succ, ih, List.length_cons]
              by_cases hji : j = i <;> simp [hji, Nat.succ_lt_succ_iff]

@[simp] theorem length_set' (l : List Value) (i : Nat) (v : Value) :
    (l.set i v).length = l.length := List.length_set l i v

theorem gD_append_left (l₁ l₂ : List Value) (j : Nat) (h : j < l₁.length) :
    gD (l₁ ++ l₂) j = gD l₁ j := by
  induction l₁ generalizing j with
  | nil => simp at h
  | cons a t ih =>
      cases j with
      | zero => simp
      | succ j => simpa using ih j (by simpa using h)

theorem gD_append_right (l₁ l₂ : List Value) (j : Nat) (h : l₁.length ≤ j) :
    gD (l₁ ++ l₂) j = gD l₂ (j - l₁.length) := by
  induction l₁ generalizing j with
  | nil => simp
  | cons a t ih =>
      cases j with
      | zero => simp at h
      | succ j =>
          simpa [Nat.succ_sub_succ] using ih j (by simpa using h)

theorem gD_replicate (n j : Nat) : gD (List.replicate n Value.undefined) j = Value.undefined := by
  induction n generalizing j with
  | zero => simp
  | succ n ih =>
      cases j with
      | zero => simp [List.replicate]
      | succ j => simpa [List.replicate] using ih j

@[simp] theorem listResize_length (l : List Value) (n : Nat) :
    (listResize l n).length = n := by
  simp only [listResize, List.length_append, List.length_take, List.length_replicate]
  omega

theorem gD_take (l : List Value) (n j : Nat) (h : j < n) :
    gD (l.take n) j = gD l j := by
  induction l generalizing n j with
  | nil => simp
  | cons a t ih =>
      cases n with
      | zero => omega
      | succ n =>
          cases j with
          | zero => simp
          | succ j => simpa using ih n j (by omega)

theorem gD_listResize (l : List Value) (n j : Nat) :
    gD (listResize l n) j = if j < n then gD l j else Value.undefined := by
  by_cases hj : j < n
  · by_cases hl : j < l.length
    · rw [listResize, gD_append_left _ _ j (by simp; omega), gD_take l n j hj]
      simp [hj]
    · rw [if_pos hj]
      have h1 : gD l j = Value.undefined := gD_of_length_le l j (by omega)
      rw [listResize]
      by_cases hln : l.length ≤ n
      · by_cases hjt : j < (l.take n).length
        · rw [gD_append_left _ _ j hjt, gD_take l n j hj, h1]
        · rw [gD_append_right _ _ j (by omega), gD_replicate, h1]
      · exfalso; omega
  · rw [if_neg hj]
    exact gD_of_length_le _ j (by simp; omega)

theorem gD_drop (l : List Value) (n j : Nat) :
    gD (l.drop n) j = if n + j < l.length then gD l (n + j) else Value.undefined := by
  induction l generalizing n j with
  | nil => simp
  | cons a t ih =>
      cases n with
      | zero => simp only [List.drop, Nat.zero_add, List.length_cons]
                by_cases h : j < t.length + 1
                · simp [h]
                · rw [if_neg (by omega)]
                  exact gD_of_length_le _ j (by simpa using by omega)
      | succ n =>
          simp only [List.drop, List.length_cons]
          rw [ih n j]
          by_cases h : n + j < t.length
          · rw [if_pos h, if_pos (by omega)]
            have hidx : n + 1 + j = (n + j) + 1 := by omega
            rw [hidx, gD_cons_succ]
          · rw [if_neg h, if_neg (by omega)]

/-!  ## Helper lemmas: the element-vector effect of one write  -/

/-- The element-vector effect of `set_array_element` on Vector storage:
resize to `index + 1` (padding with `Undefined`) when writing past the
end, then overwrite position `index`. -/
def vecWrite (l : List Value) (i : Nat) (v : Value) : List Value :=
  (if l.length ≤ i then listResize l (i + 1) else l).set i v

@[simp] theorem vecWrite_length (l : List Value) (i : Nat) (v : Value) :
    (vecWrite l i v).length = max l.length (i + 1) := by
  rw [vecWrite]
  by_cases h : l.length ≤ i
  · rw [if_pos h, length_set', listResize_length]; omega
  · rw [if_neg h, length_set']; omega

theorem gD_vecWrite (l : List Value) (i j : Nat) (v : Value) :
    gD (vecWrite l i v) j = if j = i then v else gD l j := by
  rw [vecWrite]
  by_cases h : l.length ≤ i
  · rw [if_pos h, gD_set]
    by_cases hji : j = i
    · simp [hji]
    · rw [if_neg (by tauto), if_neg hji, gD_listResize]
      by_cases hjn : j < i + 1
      · simp [hjn]
      · rw [if_neg hjn]
        exact (gD_of_length_le l j (by omega)).symm
  · rw [if_neg h, gD_set]
    by_cases hji : j = i
    · simp [hji]; omega
    · simp [hji]

/-!  ## Helper lemmas: operations do not disturb the element vector  -/

@[simp] theorem syncNativeProperty_array (o : ScriptObject) (n : String)
    (nv : Option Value) (e : Bool) : (syncNativeProperty o n nv e).array = o.array := rfl

@[simp] theorem deleteProp_array (o : ScriptObject) (n : String) (cs : Bool) :
    ((deleteProp o n cs).1).array = o.array := by
  rw [deleteProp]
  rcases h : propMapGet o.values n cs with _ | p
  · rfl
  · by_cases hd : p.canDelete <;> simp [hd]

theorem setArrayElement_vector (o : ScriptObject) (vals : List Value) (i : Nat) (v : Value)
    (hv : o.array = ArrayStorage.vector vals) :
    (setArrayElement o i v).1.array = ArrayStorage.vector (vecWrite vals i v) ∧
    (setArrayElement o i v).2 = (vecWrite vals i v).length := by
  rw [setArrayElement]
  simp only [syncNativeProperty_array, hv, vecWrite]
  by_cases h : vals.length ≤ i <;> simp [h]

theorem deleteArrayElement_vector (o : ScriptObject) (vals : List Value) (i : Nat)
    (hv : o.array = ArrayStorage.vector vals) :
    (deleteArrayElement o i).array = ArrayStorage.vector (vals.set i Value.undefined) := by
  rw [deleteArrayElement, hv]

theorem arrayElement_vector (o : ScriptObject) (vals : List Value) (i : Nat)
    (hv : o.array = ArrayStorage.vector vals) :
    arrayElement o i = gD vals i := by
  rw [arrayElement, hv]; rfl

theorem materializeArray_vector (o : ScriptObject) (vals : List Value)
    (hv : o.array = ArrayStorage.vector vals) : materializeArray o = vals := by
  rw [materializeArray, hv]

theorem objLength_vector (o : ScriptObject) (vals : List Value)
    (hv : o.array = ArrayStorage.vector vals) : objLength o = vals.length := by
  rw [objLength, hv]

theorem foldl_sync_array (is : List Nat) (o : ScriptObject) :
    ((is.foldl (fun acc i => syncNativeProperty acc (toString i) none true) o)).array =
      o.array := by
  induction is generalizing o with
  | nil => rfl
  | cons i t ih => simpa using ih (syncNativeProperty o (toString i) none true)

theorem setLength_vector (o : ScriptObject) (vals : List Value) (n : Nat)
    (hv : o.array = ArrayStorage.vector vals) :
    (setLength o n).array = ArrayStorage.vector (listResize vals n) := by
  rw [setLength, hv]
  simp only [syncNativeProperty_array]
  by_cases h : n < vals.length
  · rw [if_pos h, foldl_sync_array]
  · rw [if_neg h]

/-!  ## Helper lemmas: projecting the write loops onto element vectors  -/

theorem foldlWrite_project (is : List Nat) (idx : Nat → Nat)
    (vf : ScriptObject → Nat → Value) (pf : List Value → Nat → Value)
    (hcompat : ∀ (acc : ScriptObject) (l : List Value) (i : Nat),
      acc.array = ArrayStorage.vector l → vf acc i = pf l i) :
    ∀ (o : ScriptObject) (l : List Value), o.array = ArrayStorage.vector l →
      (is.foldl (fun acc i => (setArrayElement acc (idx i) (vf acc i)).1) o).array =
        ArrayStorage.vector (is.foldl (fun l i => vecWrite l (idx i) (pf l i)) l) := by
  induction is with
  | nil => intro o l h; simpa using h
  | cons i t ih =>
      intro o l h
      simp only [List.foldl_cons]
      exact ih _ _ (by rw [(setArrayElement_vector o l (idx i) (vf o i) h).1, hcompat o l i h])

theorem foldlDelete_project (cs : Bool) (is : List Nat) :
    ∀ (o : ScriptObject) (l : List Value), o.array = ArrayStorage.vector l →
      ((is.foldl (fun acc i => (deleteProp (deleteArrayElement acc i) (toString i) cs).1) o)).array =
        ArrayStorage.vector (is.foldl (fun l i => l.set i Value.undefined) l) := by
  induction is with
  | nil => intro o l h; simpa using h
  | cons i t ih =>
      intro o l h
      simp only [List.foldl_cons]
      exact ih _ _ (by rw [deleteProp_array, deleteArrayElement_vector _ _ _ h])

theorem foldlEnumWrite_project (ws : List Value) :
    ∀ (k : Nat) (o : ScriptObject) (l : List Value), o.array = ArrayStorage.vector l →
      ((List.enumFrom k ws).foldl (fun acc p => (setArrayElement acc p.1 p.2).1) o).array =
        ArrayStorage.vector ((List.enumFrom k ws).foldl (fun l p => vecWrite l p.1 p.2) l) := by
  induction ws with
  | nil => intro k o l h; simpa using h
  | cons w t ih =>
      intro k o l h
      simp only [List.enumFrom, List.foldl_cons]
      exact ih _ _ _ (setArrayElement_vector o l k w h).1

/-!  ## Helper lemmas: the `PropertyMap` association list  -/

theorem keyMatches_refl (cs : Bool) (name : String) : keyMatches cs name name = true := by
  rcases cs <;> simp [keyMatches]

theorem propMapGet_nil {V : Type} (name : String) (cs : Bool) :
    propMapGet ([] : PropertyMap V) name cs = none := rfl

theorem propMapGet_cons {V : Type} (k : String) (v : V) (rest : PropertyMap V)
    (name : String) (cs : Bool) :
    propMapGet ((k, v) :: rest) name cs =
      if keyMatches cs k name then some v else propMapGet rest name cs := by
  rw [propMapGet, List.find?]
  by_cases h : keyMatches cs k name <;> simp [h, propMapGet]

theorem propMapContains_iff {V : Type} (m : PropertyMap V) (name : String) (cs : Bool) :
    propMapContains m name cs = true ↔ propMapGet m name cs ≠ none := by
  induction m with
  | nil => simp [propMapContains, propMapGet]
  | cons e rest ih =>
      rcases e with ⟨k, v⟩
      rw [propMapGet_cons]
      by_cases h : keyMatches cs k name <;> simp [propMapContains, h] at ih ⊢
      exact ih

theorem propMapGet_append_self {V : Type} (m : PropertyMap V) (name : String) (cs : Bool)
    (v : V) (h : propMapGet m name cs = none) :
    propMapGet (m ++ [(name, v)]) name cs = some v := by
  induction m with
  | nil => simp [propMapGet_cons, keyMatches_refl]
  | cons e rest ih =>
      rcases e with ⟨k, w⟩
      rw [propMapGet_cons] at h
      rw [List.cons_append, propMapGet_cons]
      by_cases hk : keyMatches cs k name
      · rw [if_pos hk] at h; exact absurd h (by simp)
      · rw [if_neg hk] at h
        rw [if_neg hk]
        exact ih h

theorem propEntryUpsert_cons (k : String) (p : Property) (rest : PropertyMap Property)
    (name : String) (v : Value) (cs : Bool) :
    propEntryUpsert ((k, p) :: rest) name v cs =
      if keyMatches cs k name then
        ((k, (Property.set p v).1) :: rest, (Property.set p v).2)
      else
        ((k, p) :: (propEntryUpsert rest name v cs).1, (propEntryUpsert rest name v cs).2) :=
  rfl

theorem propEntryUpsert_vacant (entries : PropertyMap Property) (name : String)
    (v : Value) (cs : Bool) (h : propMapGet entries name cs = none) :
    propEntryUpsert entries name v cs =
      (entries ++ [(name, Property.stored v Attribute.empty)], none) := by
  induction entries with
  | nil => rfl
  | cons e rest ih =>
      rcases e with ⟨k, p⟩
      rw [propMapGet_cons] at h
      rw [propEntryUpsert_cons]
      by_cases hk : keyMatches cs k name
      · rw [if_pos hk] at h; exact absurd h (by simp)
      · rw [if_neg hk] at h
        rw [if_neg hk, ih h, List.cons_append]

theorem propEntryUpsert_occupied (entries : PropertyMap Property) (name : String)
    (v : Value) (cs : Bool) (p : Property) (h : propMapGet entries name cs = some p) :
    (propEntryUpsert entries name v cs).2 = (Property.set p v).2 ∧
    propMapGet (propEntryUpsert entries name v cs).1 name cs = some (Property.set p v).1 := by
  induction entries with
  | nil => simp [propMapGet] at h
  | cons e rest ih =>
      rcases e with ⟨k, q⟩
      rw [propMapGet_cons] at h
      rw [propEntryUpsert_cons]
      by_cases hk : keyMatches cs k name
      · rw [if_pos hk] at h
        injection h with h; subst h
        rw [if_pos hk]
        exact ⟨rfl, by rw [propMapGet_cons, if_pos hk]⟩
      · rw [if_neg hk] at h
        have := ih h
        rw [if_neg hk]
        exact ⟨this.1, by rw [propMapGet_cons, if_neg hk]; exact this.2⟩

theorem propEntryUpsert_virtual (entries : PropertyMap Property) (name : String)
    (v : Value) (cs : Bool) (g : FuncObj) (s : Option FuncObj) (a : Attribute)
    (h : propMapGet entries name cs = some (Property.virtualProp g s a)) :
    propEntryUpsert entries name v cs = (entries, s) := by
  induction entries with
  | nil => simp [propMapGet] at h
  | cons e rest ih =>
      rcases e with ⟨k, q⟩
      rw [propMapGet_cons] at h
      rw [propEntryUpsert_cons]
      by_cases hk : keyMatches cs k name
      · rw [if_pos hk] at h
        injection h with h; subst h
        rw [if_pos hk]
        rfl
      · rw [if_neg hk] at h
        rw [if_neg hk, ih h]

theorem propMapGet_entry_unique {V : Type} (m : PropertyMap V) (k : String) (p q : V)
    (hnd : (m.map Prod.fst).Nodup) (hget : propMapGet m k true = some p)
    (hmem : (k, q) ∈ m) : q = p := by
  induction m with
  | nil => simp at hmem
  | cons e rest ih =>
      rcases e with ⟨k', v'⟩
      rw [propMapGet_cons] at hget
      simp only [List.map_cons, List.nodup_cons] at hnd
      by_cases hk : keyMatches true k' k
      · rw [if_pos hk] at hget
        injection hget with hget; subst hget
        have hkk : k' = k := by simpa [keyMatches] using hk
        subst hkk
        rcases List.mem_cons.mp hmem with h1 | h1
        · injection h1 with h1a h1b
        · exact absurd (List.mem_map_of_mem Prod.fst h1) (by simpa using hnd.1)
      · rw [if_neg hk] at hget
        rcases List.mem_cons.mp hmem with h1 | h1
        · exfalso
          injection h1 with h1a h1b
          exact hk (by simp [h1a.symm, keyMatches_refl])
        · exact ih hnd.2 hget h1

theorem mem_localEnumKeys (o : ScriptObject) (k : String) :
    k ∈ localEnumKeys o ↔ ∃ p, (k, p) ∈ o.values ∧ p.isEnumerable = true := by
  rw [localEnumKeys, List.mem_filterMap]
  constructor
  · rintro ⟨⟨k', p⟩, hmem, hif⟩
    by_cases he : p.isEnumerable
    · rw [if_pos he] at hif
      injection hif with hif; subst hif
      exact ⟨p, hmem, he⟩
    · rw [if_neg he] at hif; cases hif
  · rintro ⟨p, hmem, he⟩
    exact ⟨(k, p), hmem, by simp [he]⟩

/-!  ## Concrete objects used by witnesses and counterexamples  -/

/-- An object whose only slot is a Virtual property with a
non-executable getter object and no setter. -/
def nonExecGetterObject : ScriptObject :=
  { oid := 0
    prototype := Value.undefined
    values := [("x", Property.virtualProp ⟨none⟩ none Attribute.empty)]
    watchers := []
    array := ArrayStorage.properties 0 }

/-- Same shape as `nonExecGetterObject`, for the prototype-chain
demonstration. -/
def nonExecGetterChild : ScriptObject :=
  { oid := 2
    prototype := Value.object 3
    values := [("x", Property.virtualProp ⟨none⟩ none Attribute.empty)]
    watchers := []
    array := ArrayStorage.properties 0 }

/-- A prototype object with `"x"` stored. -/
def storedXProto : ScriptObject :=
  { oid := 3
    prototype := Value.undefined
    values := [("x", Property.stored (Value.number 5) Attribute.empty)]
    watchers := []
    array := ArrayStorage.properties 0 }

/-- A prototype object defining `"b"` as an enumerable stored slot. -/
def enumBProto : ScriptObject :=
  { oid := 4
    prototype := Value.undefined
    values := [("b", Property.stored (Value.number 1) Attribute.empty)]
    watchers := []
    array := ArrayStorage.properties 0 }

/-- A child object defining `"b"` as non-enumerable (`DONT_ENUM`) and
`"c"` as enumerable. -/
def shadowBChild : ScriptObject :=
  { oid := 5
    prototype := Value.object 4
    values := [("b", Property.stored (Value.number 2) ⟨true, false, false⟩),
               ("c", Property.stored (Value.number 3) Attribute.empty)]
    watchers := []
    array := ArrayStorage.properties 0 }

/-- An object with a `READ_ONLY` stored slot `"k"`. -/
def readOnlyObject : ScriptObject :=
  { oid := 6
    prototype := Value.undefined
    values := [("k", Property.stored (Value.str "initial") ⟨false, false, true⟩)]
    watchers := []
    array := ArrayStorage.properties 0 }

/-- An object with no properties at all. -/
def emptyPlainObject : ScriptObject :=
  { oid := 7
    prototype := Value.undefined
    values := []
    watchers := []
    array := ArrayStorage.properties 0 }

/-!  ## Claim theorems  -/

/-- C9: for every signed index `i` (in the `i32` domain of
`make_index_absolute`) and array length, the normalization maps `i < 0`
to `max(length - |i|, 0)` and `i ≥ 0` to `min(i, length)`, always
producing a result in `[0, length]`. -/
theorem makeIndexAbsolute_spec (i : Int) (length : Nat)
    (h1 : -(2 ^ 31 : Int) ≤ i) (h2 : i < 2 ^ 31) :
    (i < 0 → (makeIndexAbsolute i length : Int) = max ((length : Int) - i.natAbs) 0) ∧
    (0 ≤ i → (makeIndexAbsolute i length : Int) = min i (length : Int)) ∧
    makeIndexAbsolute i length ≤ length := by
  refine ⟨fun hneg => ?_, fun hpos => ?_, ?_⟩
  · rw [makeIndexAbsolute, if_pos hneg]; omega
  · rw [makeIndexAbsolute, if_neg (by omega)]; omega
  · by_cases h : i < 0
    · rw [makeIndexAbsolute, if_pos h]; omega
    · rw [makeIndexAbsolute, if_neg h]; omega

/-- C9 witness: at `i = -2`, `length = 5` the result is `3`, and at
`i = 9`, `length = 5` the result is `5`. -/
theorem makeIndexAbsolute_spec_witness :
    ((-2 : Int) < 0 ∧ ((makeIndexAbsolute (-2) 5 : Int) = max ((5 : Int) - (-2 : Int).natAbs) 0)) ∧
    makeIndexAbsolute 9 5 ≤ 5 := by
  refine ⟨⟨by norm_num, (makeIndexAbsolute_spec (-2) 5 (by norm_num) (by norm_num)).1 (by norm_num)⟩, ?_⟩
  exact (makeIndexAbsolute_spec 9 5 (by norm_num) (by norm_num)).2.2

/-- C2 counterexample: `get_local` does *not* return `None` exactly when
the name is not present — `nonExecGetterObject` has `"x"` present (a
Virtual slot whose getter is not executable) yet `get_local` returns
`None` for it. -/
theorem getLocal_none_yet_present :
    propMapContains nonExecGetterObject.values "x" true = true ∧
    getLocal nonExecGetterObject "x" true 7 = none := by
  exact ⟨rfl, rfl⟩

/-- C2 (amended): `get_local` returns `None` exactly when the name is
not present on this object *or* is present as a Virtual slot whose
getter object is not executable; a Stored slot yields `Ok` of its value
immediately; for a Virtual slot with an executable getter the getter is
invoked with `this = receiver` and `base_prototype = self`, a thrown
failure propagates as `Err`, and any other getter failure degrades to
`Ok(Undefined)`. -/
theorem getLocal_spec (o : ScriptObject) (name : String) (cs : Bool) (receiver : ObjId) :
    (getLocal o name cs receiver = none ↔
      propMapGet o.values name cs = none ∨
      ∃ g s a, propMapGet o.values name cs = some (Property.virtualProp g s a) ∧
        g.execFn = none) ∧
    (∀ v a, propMapGet o.values name cs = some (Property.stored v a) →
      getLocal o name cs receiver = some (Except.ok v)) ∧
    (∀ g s a f, propMapGet o.values name cs = some (Property.virtualProp g s a) →
      g.execFn = some f →
      ((∀ v, f receiver (some o.oid) [] = Except.ok v →
          getLocal o name cs receiver = some (Except.ok v)) ∧
       (∀ e, f receiver (some o.oid) [] = Except.error (Error.thrownValue e) →
          getLocal o name cs receiver = some (Except.error (Error.thrownValue e))) ∧
       (f receiver (some o.oid) [] = Except.error Error.other →
          getLocal o name cs receiver = some (Except.ok Value.undefined)))) := by
  refine ⟨⟨?_, ?_⟩, ?_, ?_⟩
  · intro h
    rcases hp : propMapGet o.values name cs with _ | p
    · exact Or.inl rfl
    · rcases p with ⟨v, a⟩ | ⟨g, s, a⟩
      · rw [getLocal, hp] at h; cases h
      · rcases hg : g.execFn with _ | f
        · exact Or.inr ⟨g, s, a, rfl, hg⟩
        · rw [getLocal, hp] at h
          simp only [hg] at h
          cases h
  · rintro (h | ⟨g, s, a, hp, hg⟩)
    · rw [getLocal, h]
    · rw [getLocal, hp]
      simp only [hg]
  · intro v a hp
    rw [getLocal, hp]
  · intro g s a f hp hg
    refine ⟨fun v hv => ?_, fun e he => ?_, fun ho => ?_⟩
    · rw [getLocal, hp]; simp only [hg, hv]
    · rw [getLocal, hp]; simp only [hg, he]
    · rw [getLocal, hp]; simp only [hg, ho]

/-- C2 witness: for a Stored slot the value is returned directly. -/
theorem getLocal_spec_witness :
    getLocal storedXProto "x" true 9 = some (Except.ok (Value.number 5)) :=
  (getLocal_spec storedXProto "x" true 9).2.1 (Value.number 5) Attribute.empty rfl

/-- C10: a Virtual slot whose getter object is not executable makes
`get_local` return `None`, the same result as for an absent name, so the
prototype-walking lookup continues up the chain exactly as if the
property were missing. -/
theorem getLocal_nonexec_transparent (o : ScriptObject) (rest : List ScriptObject)
    (name : String) (cs : Bool) (receiver : ObjId) (g : FuncObj) (s : Option FuncObj)
    (a : Attribute)
    (hp : propMapGet o.values name cs = some (Property.virtualProp g s a))
    (hg : g.execFn = none) :
    getLocal o name cs receiver = none ∧
    (∀ o2 : ScriptObject, propMapGet o2.values name cs = none →
      getLocal o2 name cs receiver = none) ∧
    getChain (o :: rest) name cs receiver = getChain rest name cs receiver := by
  have h1 : getLocal o name cs receiver = none := by
    rw [getLocal, hp]; simp only [hg]
  refine ⟨h1, fun o2 h2 => by rw [getLocal, h2], ?_⟩
  rw [getChain, h1]

/-- C10 witness: with a stored `"x"` on the prototype, the chain lookup
through the non-executable-getter child finds the prototype's value. -/
theorem getLocal_nonexec_transparent_witness :
    (getLocal nonExecGetterChild "x" true 2 = none ∧
      getChain [nonExecGetterChild, storedXProto] "x" true 2 =
        getChain [storedXProto] "x" true 2) ∧
    getChain [storedXProto] "x" true 2 = Except.ok (Value.number 5) := by
  have h := getLocal_nonexec_transparent nonExecGetterChild [storedXProto] "x" true 2
    ⟨none⟩ none Attribute.empty rfl rfl
  exact ⟨⟨h.1, h.2.2⟩, rfl⟩

/-- C3: `get_keys` returns the inherited enumerable keys (from the
prototype's `get_keys`) that are not also defined locally, followed by
the local enumerable keys in map-insertion order; and a key defined
locally as non-enumerable is excluded entirely, even when an ancestor
defines it as enumerable. -/
theorem getKeys_spec :
    (∀ (o : ScriptObject) (rest : List ScriptObject) (cs : Bool),
      getKeys (o :: rest) cs =
        (getKeys rest cs).filter (fun k => !(propMapContains o.values k cs)) ++
          localEnumKeys o) ∧
    (∀ (o : ScriptObject) (rest : List ScriptObject) (k : String) (p : Property),
      (o.values.map Prod.fst).Nodup →
      propMapGet o.values k true = some p →
      p.attributes.dontEnum = true →
      k ∉ getKeys (o :: rest) true) := by
  refine ⟨fun o rest cs => rfl, ?_⟩
  intro o rest k p hnd hget hde hmem
  rw [getKeys] at hmem
  rcases List.mem_append.mp hmem with h | h
  · rcases List.mem_filter.mp h with ⟨_, hcon⟩
    have hc : propMapContains o.values k true = true :=
      (propMapContains_iff o.values k true).mpr (by rw [hget]; simp)
    rw [hc] at hcon
    cases hcon
  · rcases (mem_localEnumKeys o k).mp h with ⟨q, hqmem, hqe⟩
    have hqp := propMapGet_entry_unique o.values k p q hnd hget hqmem
    subst hqp
    rw [Property.isEnumerable, hde] at hqe
    cases hqe

/-- C3 witness: the child shadowing `"b"` with a `DONT_ENUM` slot
excludes `"b"` entirely even though the prototype enumerates it; the
full key list is just `["c"]`. -/
theorem getKeys_spec_witness :
    "b" ∉ getKeys [shadowBChild, enumBProto] true ∧
    getKeys [shadowBChild, enumBProto] true = ["c"] := by
  refine ⟨getKeys_spec.2 shadowBChild [enumBProto] "b"
    (Property.stored (Value.number 2) ⟨true, false, false⟩) (by decide) rfl rfl, rfl⟩

/-- C7: on Vector storage, reading at or past the end yields
`Undefined`, and writing at `i ≥ length` grows the vector so that the
length becomes `i + 1`, filling the gap between the old end and `i` with
`Undefined`. -/
theorem arrayVector_growth (o : ScriptObject) (vals : List Value) (i : Nat) (v : Value)
    (hv : o.array = ArrayStorage.vector vals) (hi : vals.length ≤ i) :
    arrayElement o i = Value.undefined ∧
    (setArrayElement o i v).2 = i + 1 ∧
    objLength (setArrayElement o i v).1 = i + 1 ∧
    (setArrayElement o i v).1.array =
      ArrayStorage.vector
        (vals ++ List.replicate (i - vals.length) Value.undefined ++ [v]) := by
  have hsa := setArrayElement_vector o vals i v hv
  have hlen : (vecWrite vals i v).length = i + 1 := by
    rw [vecWrite_length]; omega
  have hform : vecWrite vals i v =
      vals ++ List.replicate (i - vals.length) Value.undefined ++ [v] := by
    refine ext_gD _ _ (by simp [hlen]; omega) ?_
    intro j hj
    rw [hlen] at hj
    rw [gD_vecWrite]
    by_cases hji : j = i
    · subst hji
      rw [if_pos rfl, gD_append_right _ _ j (by simp; omega)]
      have hidx : j - (vals ++ List.replicate (j - vals.length) Value.undefined).length = 0 := by
        simp; omega
      rw [hidx]
      rfl
    · rw [if_neg hji]
      by_cases hjl : j < vals.length
      · rw [gD_append_left _ _ j (by simp; omega), gD_append_left _ _ j hjl]
      · rw [gD_of_length_le vals j (by omega),
          gD_append_left _ _ j (by simp; omega),
          gD_append_right _ _ j (by omega), gD_replicate]
  refine ⟨?_, ?_, ?_, ?_⟩
  · rw [arrayElement_vector o vals i hv]
    exact gD_of_length_le vals i hi
  · rw [hsa.2, hlen]
  · rw [objLength_vector _ _ hsa.1, hlen]
  · rw [hsa.1, hform]

/-- C7 witness: writing at index 4 of the two-element vector `[1, 2]`
yields length 5 with `Undefined` filling indices 2 and 3. -/
theorem arrayVector_growth_witness :
    arrayElement (arrayFromArgs [Value.number 1, Value.number 2]) 4 = Value.undefined ∧
    (setArrayElement (arrayFromArgs [Value.number 1, Value.number 2]) 4 (Value.number 9)).1.array =
      ArrayStorage.vector [Value.number 1, Value.number 2, Value.undefined, Value.undefined,
        Value.number 9] := by
  have h := arrayVector_growth (arrayFromArgs [Value.number 1, Value.number 2])
    [Value.number 1, Value.number 2] 4 (Value.number 9) rfl (by norm_num)
  exact ⟨h.1, by rw [h.2.2.2]; rfl⟩

/-- C8: for set/get sequences on one key (no watcher registered), get
returns the most recently set value, unless `READ_ONLY` was present on
the Stored slot at the time of the set, in which case the write is
silently ignored (and reported as success) and get returns the prior
value; an absent key is created and the new value read back. -/
theorem setGet_most_recent (o : ScriptObject) (protos : List ScriptObject) (name : String)
    (v : Value) (cs : Bool) (this : ObjId) (bp : Option ObjId) (receiver : ObjId)
    (hw : propMapGet o.watchers name cs = none) :
    (∀ u attrs, propMapGet o.values name cs = some (Property.stored u attrs) →
      getLocal (setLocal o protos name v cs this bp).1 name cs receiver =
        some (Except.ok (if attrs.readOnly then u else v)) ∧
      (setLocal o protos name v cs this bp).2 = Except.ok ()) ∧
    (propMapGet o.values name cs = none →
      getLocal (setLocal o protos name v cs this bp).1 name cs receiver =
        some (Except.ok v) ∧
      (setLocal o protos name v cs this bp).2 = Except.ok ()) := by
  have hsl : setLocal o protos name v cs this bp =
      setLocalStore o name v cs this bp (Except.ok ()) := by
    rw [setLocal, hw]
  constructor
  · intro u attrs hp
    have hocc := propEntryUpsert_occupied o.values name v cs _ hp
    have hset1 : (Property.set (Property.stored u attrs) v).1 =
        Property.stored (if attrs.readOnly then u else v) attrs := by
      by_cases h : attrs.readOnly <;> simp [Property.set, h]
    have hset2 : (Property.set (Property.stored u attrs) v).2 = none := rfl
    rw [hsl, setLocalStore]
    rw [hocc.1, hset2]
    constructor
    · rw [getLocal]
      have := hocc.2
      rw [hset1] at this
      rw [this]
    · rfl
  · intro hp
    have hvac := propEntryUpsert_vacant o.values name v cs hp
    rw [hsl, setLocalStore, hvac]
    constructor
    · rw [getLocal]
      have : propMapGet (o.values ++ [(name, Property.stored v Attribute.empty)]) name cs =
          some (Property.stored v Attribute.empty) :=
        propMapGet_append_self o.values name cs _ hp
      rw [this]
    · rfl

/-- A setter object whose invocation always throws the string `"e2"`. -/
def throwingSetterObj : FuncObj :=
  ⟨some (fun _ _ _ => Except.error (Error.thrownValue (Value.str "e2")))⟩

/-- A getter object that is not executable. -/
def inertGetter : FuncObj := ⟨none⟩

/-- A watcher whose callback always throws the string `"e1"`. -/
def throwingWatcher : Watcher :=
  ⟨⟨some (fun _ _ _ => Except.error (Error.thrownValue (Value.str "e1")))⟩, Value.null⟩

/-- An object with a watched key `"k"` whose slot is Virtual (inert
getter, throwing setter). -/
def watchedVirtualObject : ScriptObject :=
  { oid := 8
    prototype := Value.undefined
    values := [("k", Property.virtualProp inertGetter (some throwingSetterObj) Attribute.empty)]
    watchers := [("k", throwingWatcher)]
    array := ArrayStorage.properties 0 }

theorem setLocalStore_fst (o : ScriptObject) (name : String) (x : Value) (cs : Bool)
    (this : ObjId) (bp : Option ObjId) (r : Except Error Unit) :
    (setLocalStore o name x cs this bp r).1 =
      { o with values := (propEntryUpsert o.values name x cs).1 } := by
  simp only [setLocalStore]
  split <;> first
    | rfl
    | (split <;> first
        | rfl
        | (split <;> rfl))

/-- C1: `set_local` follows the exact four-step precedence.  Step 1: with
a watcher registered and the old value read as `oldv`, a thrown watcher
failure is remembered as the tentative result and forces the value to
`Undefined`; any other watcher failure forces `Undefined` but keeps the
tentative result a success; a non-failing call replaces the value with
its return.  Steps 2-4, for any effective value `x` and tentative result
`r`: a Stored slot is mutated in place (no setter invoked, tentative
result returned), a Virtual slot stores nothing and yields its setter —
whose thrown failure overrides the tentative result while any other
setter outcome leaves it in force — and an absent name appends a Stored
slot with empty attributes. -/
theorem setLocal_precedence
    (o : ScriptObject) (protos : List ScriptObject) (name : String) (v : Value)
    (cs : Bool) (this : ObjId) (bp : Option ObjId) (w : Watcher) (oldv : Value)
    (hw : propMapGet o.watchers name cs = some w)
    (hold : getChain (o :: protos) name cs o.oid = Except.ok oldv) :
    ((∀ v', watcherCall w name oldv v this bp = Except.ok v' →
        setLocal o protos name v cs this bp =
          setLocalStore o name v' cs this bp (Except.ok ())) ∧
     (∀ e, watcherCall w name oldv v this bp = Except.error (Error.thrownValue e) →
        setLocal o protos name v cs this bp =
          setLocalStore o name Value.undefined cs this bp
            (Except.error (Error.thrownValue e))) ∧
     (watcherCall w name oldv v this bp = Except.error Error.other →
        setLocal o protos name v cs this bp =
          setLocalStore o name Value.undefined cs this bp (Except.ok ()))) ∧
    (∀ (x : Value) (r : Except Error Unit),
      ((∀ u attrs, propMapGet o.values name cs = some (Property.stored u attrs) →
          (setLocalStore o name x cs this bp r).2 = r ∧
          propMapGet (setLocalStore o name x cs this bp r).1.values name cs =
            some (Property.stored (if attrs.readOnly then u else x) attrs)) ∧
       (∀ g s attrs,
          propMapGet o.values name cs = some (Property.virtualProp g s attrs) →
          (setLocalStore o name x cs this bp r).1 = o ∧
          (s = none → (setLocalStore o name x cs this bp r).2 = r) ∧
          (∀ setter, s = some setter → setter.execFn = none →
            (setLocalStore o name x cs this bp r).2 = r) ∧
          (∀ setter f, s = some setter → setter.execFn = some f →
            ((∀ e, f this bp [x] = Except.error (Error.thrownValue e) →
                (setLocalStore o name x cs this bp r).2 =
                  Except.error (Error.thrownValue e)) ∧
             (∀ z, f this bp [x] = Except.ok z →
                (setLocalStore o name x cs this bp r).2 = r) ∧
             (f this bp [x] = Except.error Error.other →
                (setLocalStore o name x cs this bp r).2 = r)))) ∧
       (propMapGet o.values name cs = none →
          (setLocalStore o name x cs this bp r).1.values =
            o.values ++ [(name, Property.stored x Attribute.empty)] ∧
          (setLocalStore o name x cs this bp r).2 = r))) := by
  constructor
  · refine ⟨fun v' hok => ?_, fun e hth => ?_, fun hother => ?_⟩
    · simp only [setLocal, hw, hold, hok]
    · simp only [setLocal, hw, hold, hth]
    · simp only [setLocal, hw, hold, hother]
  · intro x r
    refine ⟨?_, ?_, ?_⟩
    · intro u attrs hp
      have hocc := propEntryUpsert_occupied o.values name x cs _ hp
      have h2 : (propEntryUpsert o.values name x cs).2 = none := by rw [hocc.1]; rfl
      constructor
      · simp only [setLocalStore, h2]
      · rw [setLocalStore_fst]
        have hset1 : (Property.set (Property.stored u attrs) x).1 =
            Property.stored (if attrs.readOnly then u else x) attrs := by
          by_cases h : attrs.readOnly <;> simp [Property.set, h]
        have := hocc.2
        rw [hset1] at this
        exact this
    · intro g s attrs hp
      have hup : propEntryUpsert o.values name x cs = (o.values, s) :=
        propEntryUpsert_virtual o.values name x cs g s attrs hp
      have hup2 : (propEntryUpsert o.values name x cs).2 = s := by rw [hup]
      refine ⟨?_, ?_, ?_, ?_⟩
      · rw [setLocalStore_fst, hup]
      · intro hs
        rw [hs] at hup2
        simp only [setLocalStore, hup2]
      · intro setter hs hef
        rw [hs] at hup2
        simp only [setLocalStore, hup2, hef]
      · intro setter f hs hef
        rw [hs] at hup2
        refine ⟨fun e he => ?_, fun z hz => ?_, fun ho => ?_⟩
        · simp only [setLocalStore, hup2, hef, he]
        · simp only [setLocalStore, hup2, hef, hz]
        · simp only [setLocalStore, hup2, hef, ho]
    · intro hp
      have hvac := propEntryUpsert_vacant o.values name x cs hp
      have h2 : (propEntryUpsert o.values name x cs).2 = none := by rw [hvac]
      constructor
      · rw [setLocalStore_fst, hvac]
      · simp only [setLocalStore, h2]

/-- C1 witness: a watcher that throws `e1` on an object whose slot for
the key is Virtual with a setter throwing `e2`: the watcher forces the
effective value to `Undefined`, nothing is stored, and the setter's
thrown `e2` overrides the watcher's tentative `e1`. -/
theorem setLocal_precedence_witness :
    setLocal watchedVirtualObject [] "k" (Value.number 1) true 8 none =
      (watchedVirtualObject, Except.error (Error.thrownValue (Value.str "e2"))) := by
  have h := setLocal_precedence watchedVirtualObject [] "k" (Value.number 1) true 8 none
    throwingWatcher Value.undefined rfl rfl
  have h1 := h.1.2.1 (Value.str "e1") rfl
  have h2 := (h.2 Value.undefined (Except.error (Error.thrownValue (Value.str "e1")))).2.1
    inertGetter (some throwingSetterObj) Attribute.empty rfl
  have h3 := (h2.2.2.2 throwingSetterObj (fun _ _ _ =>
      Except.error (Error.thrownValue (Value.str "e2"))) rfl rfl).1 (Value.str "e2") rfl
  rw [h1]
  exact Prod.ext h2.1 h3

/-!  ## Helper lemmas: the sorting pass  -/

theorem insertRev_cons {α : Type} (ord : α → α → Ordering) (x y : α) (ys : List α) :
    insertRev ord x (y :: ys) =
      if ord x y = Ordering.lt then
        ((y :: (insertRev ord x ys).1), (insertRev ord x ys).2)
      else (x :: y :: ys, decide (ord x y = Ordering.eq)) := rfl

theorem sortPassAux_cons {α : Type} (ord : α → α → Ordering) (acc : List α) (tie : Bool)
    (x : α) (xs : List α) :
    sortPassAux ord acc tie (x :: xs) =
      sortPassAux ord (insertRev ord x acc).1 (tie || (insertRev ord x acc).2) xs := rfl

theorem insertRev_split {α : Type} (ord : α → α → Ordering) (x : α) (acc : List α) :
    ∃ l₁ l₂, acc = l₁ ++ l₂ ∧ (insertRev ord x acc).1 = l₁ ++ x :: l₂ ∧
      ∀ y ∈ l₁, ord x y = Ordering.lt := by
  induction acc with
  | nil => exact ⟨[], [], rfl, rfl, by simp⟩
  | cons y ys ih =>
      rw [insertRev_cons]
      by_cases h : ord x y = Ordering.lt
      · rcases ih with ⟨l₁, l₂, he, hr, hlt⟩
        refine ⟨y :: l₁, l₂, by rw [List.cons_append, he], ?_, ?_⟩
        · rw [if_pos h]
          simp only [List.cons_append]
          rw [hr]
        · intro z hz
          rcases List.mem_cons.mp hz with rfl | hz'
          · exact h
          · exact hlt z hz'
      · rw [if_neg h]
        exact ⟨[], y :: ys, rfl, rfl, by simp⟩

theorem sublist_insertRev {α : Type} (ord : α → α → Ordering) (x : α) (acc : List α) :
    List.Sublist acc (insertRev ord x acc).1 := by
  rcases insertRev_split ord x acc with ⟨l₁, l₂, he, hr, _⟩
  rw [hr, he]
  exact List.Sublist.append_left (List.sublist_cons_self x l₂) l₁

theorem self_mem_insertRev {α : Type} (ord : α → α → Ordering) (x : α) (acc : List α) :
    x ∈ (insertRev ord x acc).1 := by
  rcases insertRev_split ord x acc with ⟨l₁, l₂, _, hr, _⟩
  rw [hr]
  exact List.mem_append.mpr (Or.inr (List.mem_cons_self x l₂))

theorem insertRev_place {α : Type} (ord : α → α → Ordering) (q p : α) (acc : List α)
    (hmem : p ∈ acc) (hnl : ord q p ≠ Ordering.lt) :
    List.Sublist [q, p] (insertRev ord q acc).1 := by
  rcases insertRev_split ord q acc with ⟨l₁, l₂, he, hr, hlt⟩
  rw [hr]
  have hp2 : p ∈ l₂ := by
    rcases List.mem_append.mp (by rw [← he]; exact hmem) with h1 | h2
    · exact absurd (hlt p h1) hnl
    · exact h2
  have h1 : List.Sublist [q, p] (q :: l₂) := List.Sublist.cons₂ q (List.singleton_sublist.mpr hp2)
  exact h1.trans (List.sublist_append_right l₁ (q :: l₂))

theorem sortPassAux_sublist {α : Type} (ord : α → α → Ordering) (rem : List α) :
    ∀ (acc : List α) (tie : Bool) (s : List α), List.Sublist s acc →
      List.Sublist s (sortPassAux ord acc tie rem).1 := by
  induction rem with
  | nil => intro acc tie s h; exact h
  | cons x xs ih =>
      intro acc tie s h
      rw [sortPassAux_cons]
      exact ih _ _ s (h.trans (sublist_insertRev ord x acc))

theorem sortPassAux_stable_phase {α : Type} (ord : α → α → Ordering) (q p : α)
    (hnl : ord q p ≠ Ordering.lt) :
    ∀ (rem : List α) (acc : List α) (tie : Bool), q ∈ rem → p ∈ acc →
      List.Sublist [q, p] (sortPassAux ord acc tie rem).1 := by
  intro rem
  induction rem with
  | nil => intro acc tie hq; simp at hq
  | cons x xs ih =>
      intro acc tie hq hp
      rw [sortPassAux_cons]
      rcases List.mem_cons.mp hq with rfl | hq'
      · exact sortPassAux_sublist ord xs _ _ _ (insertRev_place ord q p acc hp hnl)
      · exact ih _ _ hq' ((sublist_insertRev ord x acc).subset hp)

theorem pair_sublist_split {α : Type} (p q : α) :
    ∀ l : List α, List.Sublist [p, q] l → ∃ l₁ l₂, l = l₁ ++ p :: l₂ ∧ q ∈ l₂ := by
  intro l h
  induction l with
  | nil => cases h
  | cons x xs ih =>
      cases h with
      | cons _ h' =>
          rcases ih h' with ⟨l₁, l₂, he, hq⟩
          exact ⟨x :: l₁, l₂, by rw [he, List.cons_append], hq⟩
      | cons₂ _ h' =>
          exact ⟨[], xs, rfl, List.singleton_sublist.mp h'⟩

theorem sortPass_stable {α : Type} (ord : α → α → Ordering) (l : List α) (p q : α)
    (hsub : List.Sublist [p, q] l) (hnl : ord q p ≠ Ordering.lt) :
    List.Sublist [p, q] (sortPass ord l).1 := by
  rcases pair_sublist_split p q l hsub with ⟨l₁, l₂, rfl, hq⟩
  suffices h : ∀ (m : List α) (acc : List α) (tie : Bool),
      List.Sublist [q, p] (sortPassAux ord acc tie (m ++ p :: l₂)).1 by
    have h2 := h l₁ [] false
    rw [sortPass]
    simpa using h2.reverse
  intro m
  induction m with
  | nil =>
      intro acc tie
      rw [List.nil_append, sortPassAux_cons]
      exact sortPassAux_stable_phase ord q p hnl l₂ _ _ hq (self_mem_insertRev ord p acc)
  | cons y ys ih =>
      intro acc tie
      rw [List.cons_append, sortPassAux_cons]
      exact ih _ _

theorem insertRev_length {α : Type} (ord : α → α → Ordering) (x : α) :
    ∀ acc : List α, (insertRev ord x acc).1.length = acc.length + 1 := by
  intro acc
  induction acc with
  | nil => rfl
  | cons y ys ih =>
      rw [insertRev_cons]
      by_cases h : ord x y = Ordering.lt
      · simp only [if_pos h, List.length_cons, ih]
      · simp [if_neg h]

theorem sortPassAux_length {α : Type} (ord : α → α → Ordering) :
    ∀ (rem acc : List α) (tie : Bool),
      (sortPassAux ord acc tie rem).1.length = acc.length + rem.length := by
  intro rem
  induction rem with
  | nil => intro acc tie; simp [sortPassAux]
  | cons x xs ih =>
      intro acc tie
      rw [sortPassAux_cons, ih, insertRev_length]
      simp only [List.length_cons]
      omega

theorem sortPass_length {α : Type} (ord : α → α → Ordering) (l : List α) :
    (sortPass ord l).1.length = l.length := by
  rw [sortPass]
  simp [sortPassAux_length]

theorem get?_enumFrom {α : Type} :
    ∀ (l : List α) (k i : Nat),
      (List.enumFrom k l).get? i = (l.get? i).map (fun a => (k + i, a)) := by
  intro l
  induction l with
  | nil => intro k i; rfl
  | cons x xs ih =>
      intro k i
      cases i with
      | zero => simp [List.enumFrom]
      | succ i =>
          have hk : k + (i + 1) = (k + 1) + i := by omega
          simp [List.enumFrom, ih (k + 1) i, hk]

theorem getElem_pair_sublist {α : Type} :
    ∀ (l : List α) (i j : Nat) (a b : α), i < j →
      l.get? i = some a → l.get? j = some b → List.Sublist [a, b] l := by
  intro l
  induction l with
  | nil => intro i j a b hij ha hb; simp at ha
  | cons x xs ih =>
      intro i j a b hij ha hb
      cases i with
      | zero =>
          injection ha with ha; subst ha
          cases j with
          | zero => omega
          | succ j =>
              exact List.Sublist.cons₂ x (List.singleton_sublist.mpr (List.get?_mem hb))
      | succ i =>
          cases j with
          | zero => omega
          | succ j => exact List.Sublist.cons x (ih i j a b (by omega) ha hb)

theorem enumFrom_map_snd {α β : Type} (g : α → β) :
    ∀ (l : List α) (k : Nat),
      List.enumFrom k (l.map g) = (List.enumFrom k l).map (fun p => (p.1, g p.2)) := by
  intro l
  induction l with
  | nil => intro k; rfl
  | cons x xs ih => intro k; simp [List.enumFrom, ih (k + 1)]

theorem enumWrite_pure (ws : List Value) :
    ∀ (k : Nat) (l : List Value), k + ws.length ≤ l.length →
      (((List.enumFrom k ws).foldl (fun l p => vecWrite l p.1 p.2) l).length = l.length ∧
       ∀ j, gD ((List.enumFrom k ws).foldl (fun l p => vecWrite l p.1 p.2) l) j =
         if k ≤ j ∧ j < k + ws.length then gD ws (j - k) else gD l j) := by
  induction ws with
  | nil =>
      intro k l _
      refine ⟨rfl, fun j => ?_⟩
      simp only [List.enumFrom, List.foldl_nil, List.length_nil]
      rw [if_neg (by omega)]
  | cons w t ih =>
      intro k l hk
      simp only [List.enumFrom, List.foldl_cons, List.length_cons] at hk ⊢
      have hlen : (vecWrite l k w).length = l.length := by
        rw [vecWrite_length]; omega
      rcases ih (k + 1) (vecWrite l k w) (by omega) with ⟨ih1, ih2⟩
      rw [ih1, hlen]
      refine ⟨rfl, fun j => ?_⟩
      rw [ih2 j]
      by_cases h1 : k + 1 ≤ j ∧ j < k + 1 + t.length
      · rw [if_pos h1, if_pos (by omega)]
        have : j - k = (j - (k + 1)) + 1 := by omega
        rw [this, gD_cons_succ]
      · rw [if_neg h1, gD_vecWrite]
        by_cases h2 : j = k
        · rw [if_pos h2, if_pos (by omega), h2, Nat.sub_self, gD_cons_zero]
        · rw [if_neg h2, if_neg (by omega)]

/-- C4: with `UNIQUE_SORT` set, a tie observed during the sorting pass
makes `sort_with_function` abort: it returns the number `0` and leaves
the source object unmutated. -/
theorem uniqueSort_tie_aborts (o : ScriptObject) (cmp : Value → Value → Ordering)
    (flags : SortFlags) (hu : flags.uniqueSort = true)
    (ht : (sortPass (wrappedCmp cmp flags) (materializeArray o).enum).2 = true) :
    sortWithFunction o cmp flags = (o, SortRet.retNumberZero) := by
  simp [sortWithFunction, hu, ht]

/-- C4 witness: `sort` with `UNIQUE_SORT` on the array `[1, 1, 2]` (the
default string comparator, which is what `sort` uses for these flags)
observes the tie between the two `1`s, returns the number `0`, and
leaves the array unchanged. -/
theorem uniqueSort_tie_aborts_witness :
    (sortPass (wrappedCmp sortCompareString
        { SortFlags.empty with uniqueSort := true })
      (materializeArray (arrayFromArgs
        [Value.number 1, Value.number 1, Value.number 2])).enum).2 = true ∧
    sortWithFunction (arrayFromArgs [Value.number 1, Value.number 1, Value.number 2])
        sortCompareString { SortFlags.empty with uniqueSort := true } =
      (arrayFromArgs [Value.number 1, Value.number 1, Value.number 2],
        SortRet.retNumberZero) := by
  refine ⟨rfl, uniqueSort_tie_aborts _ _ _ rfl rfl⟩

/-- C5 counterexample: the claim's "the relative order of elements with
equal keys is preserved" is false of the program in general.  The pass
is `values.sort_unstable_by(...)` (array.rs line 606), whose contract
fixes only `sortUnstableOutcome`; for the two equal-keyed pairs
`(0, 7)` and `(1, 7)` under the default string comparator, the swapped
output is a compliant outcome of that routine, and it does not keep the
original pair order. -/
theorem sortUnstable_reorders_equal :
    sortUnstableOutcome (wrappedCmp sortCompareString SortFlags.empty)
      [(0, Value.number 7), (1, Value.number 7)]
      [(1, Value.number 7), (0, Value.number 7)] ∧
    ¬ List.Sublist [(0, Value.number 7), (1, Value.number 7)]
      [(1, Value.number 7), (0, Value.number 7)] := by
  refine ⟨⟨List.Perm.swap _ _ _, ?_⟩, ?_⟩
  · refine List.chain'_cons.mpr ⟨?_, List.chain'_singleton _⟩
    decide
  · intro h
    have heq := h.eq_of_length (by simp)
    simp at heq

/-- C5 (amended): the sort is one pass over the enumerated
(original index, value) pairs: (a) `DESCENDING` is obtained by reversing
the comparator's result rather than reversing the sorted sequence — the
whole operation equals a non-descending sort under the result-swapped
comparator; (b) for arrays of at most 20 elements — where the delegated
`sort_unstable_by` runs exactly the insertion sort embedded here, its
`MAX_INSERTION` regime — two elements whose values compare equal keep
their original relative order (beyond that regime the delegated routine
may reorder equal elements, see `sortUnstable_reorders_equal`); (c) an
observed tie is what clears the `is_unique` flag: under `UNIQUE_SORT`
the abort happens exactly when the pass observed a tie; (d) in the same
regime, when no abort occurs and no indexed array is requested, the
source's element vector becomes exactly the pass's sorted value
sequence. -/
theorem sort_descending_stable_pass :
    (∀ (o : ScriptObject) (cmp : Value → Value → Ordering) (flags : SortFlags),
      flags.descending = true →
      sortWithFunction o cmp flags =
        sortWithFunction o (fun a b => (cmp a b).swap)
          { flags with descending := false }) ∧
    (∀ (o : ScriptObject) (cmp : Value → Value → Ordering) (flags : SortFlags)
       (vals : List Value) (i j : Nat) (vi vj : Value),
      o.array = ArrayStorage.vector vals → vals.length ≤ 20 →
      i < j → vals.get? i = some vi → vals.get? j = some vj →
      cmp vj vi = Ordering.eq →
      List.Sublist [(i, vi), (j, vj)]
        (sortPass (wrappedCmp cmp flags) (materializeArray o).enum).1) ∧
    (∀ (o : ScriptObject) (cmp : Value → Value → Ordering) (flags : SortFlags),
      flags.uniqueSort = true →
      ((sortWithFunction o cmp flags).2 = SortRet.retNumberZero ↔
        (sortPass (wrappedCmp cmp flags) (materializeArray o).enum).2 = true)) ∧
    (∀ (o : ScriptObject) (cmp : Value → Value → Ordering) (flags : SortFlags)
       (vals : List Value),
      o.array = ArrayStorage.vector vals → vals.length ≤ 20 →
      (flags.uniqueSort = false ∨
        (sortPass (wrappedCmp cmp flags) vals.enum).2 = false) →
      flags.returnIndexedArray = false →
      (sortWithFunction o cmp flags).1.array =
        ArrayStorage.vector
          ((sortPass (wrappedCmp cmp flags) vals.enum).1.map Prod.snd)) := by
  refine ⟨?_, ?_, ?_, ?_⟩
  · intro o cmp flags hd
    have hw : wrappedCmp cmp flags =
        wrappedCmp (fun a b => (cmp a b).swap) { flags with descending := false } := by
      funext a b
      simp [wrappedCmp, hd]
    simp only [sortWithFunction, hw]
  · intro o cmp flags vals i j vi vj hv h20 hij hgi hgj hcmp
    rw [materializeArray_vector o vals hv]
    have hsub : List.Sublist [(i, vi), (j, vj)] vals.enum := by
      refine getElem_pair_sublist vals.enum i j _ _ hij ?_ ?_
      · rw [show vals.enum = List.enumFrom 0 vals from rfl, get?_enumFrom, hgi]
        simp
      · rw [show vals.enum = List.enumFrom 0 vals from rfl, get?_enumFrom, hgj]
        simp
    have hnl : wrappedCmp cmp flags (j, vj) (i, vi) ≠ Ordering.lt := by
      have heq : wrappedCmp cmp flags (j, vj) (i, vi) = Ordering.eq := by
        by_cases hd : flags.descending <;> simp [wrappedCmp, hcmp, hd, Ordering.swap]
      rw [heq]; decide
    exact sortPass_stable _ _ _ _ hsub hnl
  · intro o cmp flags hu
    by_cases ht : (sortPass (wrappedCmp cmp flags) (materializeArray o).enum).2 = true
    · simp [sortWithFunction, hu, ht]
    · have ht' : (sortPass (wrappedCmp cmp flags) (materializeArray o).enum).2 = false := by
        revert ht
        cases (sortPass (wrappedCmp cmp flags) (materializeArray o).enum).2 <;> simp
      by_cases hr : flags.returnIndexedArray
      · simp [sortWithFunction, hu, ht', hr]
      · simp [sortWithFunction, hu, ht', hr]
  · intro o cmp flags vals hv h20 habort hret
    have hm : materializeArray o = vals := materializeArray_vector o vals hv
    have hws : ((sortPass (wrappedCmp cmp flags) vals.enum).1.map Prod.snd).length =
        vals.length := by
      rw [List.length_map, sortPass_length, List.enum_length]
    have hcond : (flags.uniqueSort &&
        (sortPass (wrappedCmp cmp flags) vals.enum).2) = false := by
      rcases habort with h | h
      · simp [h]
      · simp [h]
    have hconv : ((sortPass (wrappedCmp cmp flags) vals.enum).1).enum.foldl
          (fun acc p => (setArrayElement acc p.1 p.2.2).1) o =
        (List.enumFrom 0
            ((sortPass (wrappedCmp cmp flags) vals.enum).1.map Prod.snd)).foldl
          (fun acc p => (setArrayElement acc p.1 p.2).1) o := by
      rw [enumFrom_map_snd, List.foldl_map]
      rfl
    simp only [sortWithFunction, hm, Bool.not_not, hcond, Bool.false_eq_true, if_false,
      hret, hconv]
    rw [foldlEnumWrite_project _ 0 o vals hv]
    congr 1
    rcases enumWrite_pure ((sortPass (wrappedCmp cmp flags) vals.enum).1.map Prod.snd)
      0 vals (by omega) with ⟨hl1, hp1⟩
    refine ext_gD _ _ (by rw [hl1, hws]) ?_
    intro j hj
    rw [hl1] at hj
    rw [hp1 j, if_pos (by omega)]
    rw [Nat.sub_zero]

/-- C5 witness: (a) at a concrete descending sort, (b) at two equal
elements whose pair order is preserved, (d) at a concrete in-place
rewrite. -/
theorem sort_descending_stable_pass_witness :
    sortWithFunction (arrayFromArgs [Value.number 3, Value.number 1]) sortCompareString
        { SortFlags.empty with descending := true } =
      sortWithFunction (arrayFromArgs [Value.number 3, Value.number 1])
        (fun a b => (sortCompareString a b).swap)
        { { SortFlags.empty with descending := true } with descending := false } ∧
    List.Sublist [(0, Value.number 7), (1, Value.number 7)]
      (sortPass (wrappedCmp sortCompareString SortFlags.empty)
        (materializeArray (arrayFromArgs [Value.number 7, Value.number 7])).enum).1 ∧
    (sortWithFunction (arrayFromArgs [Value.number 1, Value.number 2]) sortCompareString
        { SortFlags.empty with uniqueSort := true }).1.array =
      ArrayStorage.vector
        ((sortPass (wrappedCmp sortCompareString
            { SortFlags.empty with uniqueSort := true })
          [Value.number 1, Value.number 2].enum).1.map Prod.snd) := by
  refine ⟨sort_descending_stable_pass.1 _ _ _ rfl, ?_, ?_⟩
  · exact sort_descending_stable_pass.2.1 _ sortCompareString SortFlags.empty
      [Value.number 7, Value.number 7] 0 1 (Value.number 7) (Value.number 7)
      rfl (by decide) (by decide) rfl rfl rfl
  · exact sort_descending_stable_pass.2.2.2 _ sortCompareString
      { SortFlags.empty with uniqueSort := true } [Value.number 1, Value.number 2]
      rfl (by decide) (Or.inr rfl) rfl

/-- C8 witness: a `READ_ONLY` slot keeps `"initial"` after a set of
`"replaced"`, while a fresh key reads back the newly set value. -/
theorem setGet_most_recent_witness :
    getLocal (setLocal readOnlyObject [] "k" (Value.str "replaced") true 3 none).1
        "k" true 3 = some (Except.ok (Value.str "initial")) ∧
    getLocal (setLocal emptyPlainObject [] "f" (Value.str "fresh") true 3 none).1
        "f" true 3 = some (Except.ok (Value.str "fresh")) := by
  constructor
  · have h := (setGet_most_recent readOnlyObject [] "k" (Value.str "replaced") true 3 none 3
      rfl).1 (Value.str "initial") ⟨false, false, true⟩ rfl
    simpa using h.1
  · exact ((setGet_most_recent emptyPlainObject [] "f" (Value.str "fresh") true 3 none 3
      rfl).2 rfl).1

/-!  ## Helper lemmas: the splice loops  -/

theorem makeIndexAbsolute_le (i : Int) (L : Nat) : makeIndexAbsolute i L ≤ L := by
  rw [makeIndexAbsolute]
  by_cases h : i < 0
  · rw [if_pos h]; omega
  · rw [if_neg h]; omega

theorem vecWrite_at_length (l : List Value) (x : Value) :
    vecWrite l l.length x = l ++ [x] := by
  refine ext_gD _ _ (by rw [vecWrite_length]; simp) ?_
  intro j hj
  rw [vecWrite_length] at hj
  rw [gD_vecWrite]
  by_cases h : j = l.length
  · rw [if_pos h, h, gD_append_right _ _ _ (le_refl _), Nat.sub_self]
    rfl
  · rw [if_neg h, gD_append_left _ _ j (by omega)]

theorem rangeWrite_append (g : Nat → Value) :
    ∀ n : Nat, (List.range n).foldl (fun r j => vecWrite r j (g j)) [] =
      (List.range n).map g := by
  intro n
  induction n with
  | zero => rfl
  | succ n ih =>
      rw [List.range_succ, List.foldl_append, List.map_append, ih]
      simp only [List.foldl_cons, List.foldl_nil, List.map_cons, List.map_nil]
      have h := vecWrite_at_length ((List.range n).map g) (g n)
      have hlen : ((List.range n).map g).length = n := by simp
      rw [hlen] at h
      exact h

theorem gD_map_range (g : Nat → Value) :
    ∀ (k j : Nat), j < k → gD ((List.range k).map g) j = g j := by
  intro k
  induction k with
  | zero => intro j hj; omega
  | succ k ih =>
      intro j hj
      rw [List.range_succ, List.map_append]
      by_cases h : j < k
      · rw [gD_append_left _ _ j (by simp; omega), ih j h]
      · have hjk : j = k := by omega
        subst hjk
        rw [gD_append_right _ _ j (by simp), List.map_cons]
        simp

theorem map_range_eq_drop_take (vals : List Value) (s k : Nat) (h : s + k ≤ vals.length) :
    (List.range k).map (fun j => gD vals (s + j)) = (vals.drop s).take k := by
  refine ext_gD _ _ (by simp; omega) ?_
  intro j hj
  simp only [List.length_map, List.length_range] at hj
  rw [gD_map_range _ k j hj, gD_take _ k j hj, gD_drop, if_pos (by omega)]

theorem listResize_of_length (l : List Value) : listResize l l.length = l := by
  refine ext_gD _ _ (by simp) ?_
  intro j hj
  rw [listResize_length] at hj
  rw [gD_listResize, if_pos hj]

theorem consecWrite_pointwise (g : Nat → Value) :
    ∀ (n s : Nat) (l : List Value), s ≤ l.length →
      (((List.range' s n).foldl (fun acc i => vecWrite acc i (g i)) l).length
         = max l.length (s + n) ∧
       ∀ j, gD ((List.range' s n).foldl (fun acc i => vecWrite acc i (g i)) l) j =
         if s ≤ j ∧ j < s + n then g j else gD l j) := by
  intro n
  induction n with
  | zero =>
      intro s l _
      refine ⟨by simp; omega, fun j => by rw [if_neg (by omega)]; rfl⟩
  | succ n ih =>
      intro s l hs
      rw [List.range'_succ]
      simp only [List.foldl_cons]
      have hlen1 : (vecWrite l s (g s)).length = max l.length (s + 1) := vecWrite_length l s (g s)
      rcases ih (s + 1) (vecWrite l s (g s)) (by omega) with ⟨ih1, ih2⟩
      constructor
      · rw [ih1, hlen1]; omega
      · intro j
        rw [ih2 j]
        by_cases h1 : s + 1 ≤ j ∧ j < s + 1 + n
        · rw [if_pos h1, if_pos (by omega)]
        · rw [if_neg h1, gD_vecWrite]
          by_cases h2 : j = s
          · rw [if_pos h2, if_pos (by omega), h2]
          · rw [if_neg h2, if_neg (by omega)]

theorem shiftAsc_pointwise (off : Nat) :
    ∀ (n s : Nat) (l vals : List Value),
      (∀ j, s ≤ j → gD l j = gD vals j) → s + n ≤ l.length →
      (((List.range' s n).foldl (fun l i => vecWrite l i (gD l (i + off))) l).length
         = l.length ∧
       ∀ j, gD ((List.range' s n).foldl (fun l i => vecWrite l i (gD l (i + off))) l) j =
         if s ≤ j ∧ j < s + n then gD vals (j + off) else gD l j) := by
  intro n
  induction n with
  | zero =>
      intro s l vals _ _
      exact ⟨rfl, fun j => by rw [if_neg (by omega)]; rfl⟩
  | succ n ih =>
      intro s l vals hagree hrange
      rw [List.range'_succ]
      simp only [List.foldl_cons]
      have hval : gD l (s + off) = gD vals (s + off) := hagree (s + off) (by omega)
      have hlen1 : (vecWrite l s (gD l (s + off))).length = l.length := by
        rw [vecWrite_length]; omega
      have hagree1 : ∀ j, s + 1 ≤ j → gD (vecWrite l s (gD l (s + off))) j = gD vals j := by
        intro j hj
        rw [gD_vecWrite, if_neg (by omega)]
        exact hagree j (by omega)
      rcases ih (s + 1) (vecWrite l s (gD l (s + off))) vals hagree1 (by omega) with ⟨ih1, ih2⟩
      constructor
      · rw [ih1, hlen1]
      · intro j
        rw [ih2 j]
        by_cases h1 : s + 1 ≤ j ∧ j < s + 1 + n
        · rw [if_pos h1, if_pos (by omega)]
        · rw [if_neg h1, gD_vecWrite]
          by_cases h2 : j = s
          · rw [if_pos h2, if_pos (by omega), h2, hval]
          · rw [if_neg h2, if_neg (by omega)]

theorem shiftDesc_pointwise (off : Int) (hoff : off < 0) :
    ∀ (n : Nat) (s : Nat) (l vals : List Value),
      (0 : Int) ≤ (s : Int) + off →
      (∀ j, j < s + n → gD l j = gD vals j) →
      ((((List.range' s n).reverse).foldl
          (fun l i => vecWrite l i (gD l (Int.toNat ((i : Int) + off)))) l).length
         = (if n = 0 then l.length else max l.length (s + n)) ∧
       ∀ j, gD (((List.range' s n).reverse).foldl
           (fun l i => vecWrite l i (gD l (Int.toNat ((i : Int) + off)))) l) j =
         if s ≤ j ∧ j < s + n then gD vals (Int.toNat ((j : Int) + off)) else gD l j) := by
  intro n
  induction n with
  | zero =>
      intro s l vals _ _
      exact ⟨rfl, fun j => by rw [if_neg (by omega)]; rfl⟩
  | succ n ih =>
      intro s l vals hpos hagree
      rw [List.range'_concat, List.reverse_append, List.reverse_singleton,
        List.singleton_append]
      simp only [List.foldl_cons, one_mul]
      have hval : gD l (Int.toNat ((↑(s + n) : Int) + off)) =
          gD vals (Int.toNat ((↑(s + n) : Int) + off)) :=
        hagree _ (by omega)
      have hlen1 : (vecWrite l (s + n) (gD l (Int.toNat ((↑(s + n) : Int) + off)))).length =
          max l.length (s + n + 1) := vecWrite_length _ _ _
      have hagree1 : ∀ j, j < s + n →
          gD (vecWrite l (s + n) (gD l (Int.toNat ((↑(s + n) : Int) + off)))) j =
            gD vals j := by
        intro j hj
        rw [gD_vecWrite, if_neg (by omega)]
        exact hagree j (by omega)
      rcases ih s (vecWrite l (s + n) (gD l (Int.toNat ((↑(s + n) : Int) + off)))) vals
        hpos hagree1 with ⟨ih1, ih2⟩
      constructor
      · rw [ih1, hlen1]
        by_cases hn : n = 0
        · rw [if_pos hn, if_neg (by omega)]
          omega
        · rw [if_neg hn, if_neg (by omega)]
          omega
      · intro j
        rw [ih2 j]
        by_cases h1 : s ≤ j ∧ j < s + n
        · rw [if_pos h1, if_pos (by omega)]
        · rw [if_neg h1, gD_vecWrite]
          by_cases h2 : j = s + n
          · rw [if_pos h2, if_pos (by omega), h2, hval]
          · rw [if_neg h2, if_neg (by omega)]

theorem listResize_eq_self (l : List Value) (n : Nat) (h : l.length = n) :
    listResize l n = l := by
  refine ext_gD _ _ (by rw [listResize_length, h]) ?_
  intro j hj
  rw [listResize_length] at hj
  rw [gD_listResize, if_pos hj]

theorem rangeOffsetWrite_eq (g' : Nat → Value) (s n : Nat) (l : List Value) :
    (List.range n).foldl (fun acc i => vecWrite acc (s + i) (g' i)) l =
      (List.range' s n).foldl (fun acc i => vecWrite acc i (g' (i - s))) l := by
  rw [List.range'_eq_map_range, List.foldl_map]
  congr 1
  funext acc i
  have h : s + i - s = i := by omega
  rw [h]

theorem deleteRange_pointwise :
    ∀ (is : List Nat) (l : List Value),
      ((is.foldl (fun l i => l.set i Value.undefined) l).length = l.length ∧
       ∀ j, (∀ i ∈ is, j ≠ i) →
         gD (is.foldl (fun l i => l.set i Value.undefined) l) j = gD l j) := by
  intro is
  induction is with
  | nil => intro l; exact ⟨rfl, fun j _ => rfl⟩
  | cons i t ih =>
      intro l
      simp only [List.foldl_cons]
      rcases ih (l.set i Value.undefined) with ⟨ih1, ih2⟩
      constructor
      · rw [ih1, length_set']
      · intro j hj
        rw [ih2 j (fun i' hi' => hj i' (List.mem_cons_of_mem i hi')), gD_set,
          if_neg (by have := hj i (List.mem_cons_self i t); tauto)]

theorem splice_tail_assembly (o1 : ScriptObject) (w vals items : List Value)
    (start toRemove : Nat) (cs : Bool)
    (hw : o1.array = ArrayStorage.vector w)
    (hsle : start ≤ vals.length) (htr : start + toRemove ≤ vals.length)
    (hls : start ≤ w.length)
    (hwlow : ∀ j, j < start → gD w j = gD vals j)
    (hwhigh : ∀ j, start + items.length ≤ j →
      j < vals.length + items.length - toRemove →
      gD w j = gD vals (j + toRemove - items.length)) :
    (setLength
        ((List.range' (vals.length + items.length - toRemove)
            (vals.length - (vals.length + items.length - toRemove))).foldl
          (fun acc i => (deleteProp (deleteArrayElement acc i) (toString i) cs).1)
          ((List.range items.length).foldl
            (fun acc i => (setArrayElement acc (start + i) (items.getD i Value.undefined)).1)
            o1))
        (vals.length + items.length - toRemove)).array =
      ArrayStorage.vector
        (vals.take start ++ items ++ vals.drop (start + toRemove)) := by
  have hs2w : (vals.take start).length = start := by
    rw [List.length_take]; omega
  have hIproj : ((List.range items.length).foldl
      (fun acc i => (setArrayElement acc (start + i) (items.getD i Value.undefined)).1)
      o1).array =
      ArrayStorage.vector ((List.range items.length).foldl
        (fun l i => vecWrite l (start + i) (gD items i)) w) :=
    foldlWrite_project (List.range items.length) (fun i => start + i)
      (fun _ i => items.getD i Value.undefined) (fun _ i => gD items i)
      (fun _ _ _ _ => rfl) o1 w hw
  have hIconv : (List.range items.length).foldl
      (fun l i => vecWrite l (start + i) (gD items i)) w =
      (List.range' start items.length).foldl
        (fun acc i => vecWrite acc i (gD items (i - start))) w :=
    rangeOffsetWrite_eq (fun i => gD items i) start items.length w
  have hcc := consecWrite_pointwise (fun idx => gD items (idx - start))
    items.length start w hls
  have hl2pt : ∀ j, gD ((List.range items.length).foldl
      (fun l i => vecWrite l (start + i) (gD items i)) w) j =
      if start ≤ j ∧ j < start + items.length then gD items (j - start) else gD w j := by
    intro j
    rw [hIconv]
    exact hcc.2 j
  have hl2len : ((List.range items.length).foldl
      (fun l i => vecWrite l (start + i) (gD items i)) w).length =
      max w.length (start + items.length) := by
    rw [hIconv]
    exact hcc.1
  have hDproj : ((List.range' (vals.length + items.length - toRemove)
      (vals.length - (vals.length + items.length - toRemove))).foldl
      (fun acc i => (deleteProp (deleteArrayElement acc i) (toString i) cs).1)
      ((List.range items.length).foldl
        (fun acc i => (setArrayElement acc (start + i) (items.getD i Value.undefined)).1)
        o1)).array =
      ArrayStorage.vector ((List.range' (vals.length + items.length - toRemove)
        (vals.length - (vals.length + items.length - toRemove))).foldl
        (fun l i => l.set i Value.undefined)
        ((List.range items.length).foldl
          (fun l i => vecWrite l (start + i) (gD items i)) w)) :=
    foldlDelete_project cs _ _ _ hIproj
  have hdd := deleteRange_pointwise
    (List.range' (vals.length + items.length - toRemove)
      (vals.length - (vals.length + items.length - toRemove)))
    ((List.range items.length).foldl (fun l i => vecWrite l (start + i) (gD items i)) w)
  rw [setLength_vector _ _ _ hDproj]
  congr 1
  refine ext_gD _ _ ?_ ?_
  · rw [listResize_length]
    simp only [List.length_append, List.length_take, List.length_drop]
    omega
  · intro j hj
    rw [listResize_length] at hj
    have hjd : ∀ i ∈ List.range' (vals.length + items.length - toRemove)
        (vals.length - (vals.length + items.length - toRemove)), j ≠ i := by
      intro i hi
      rw [List.mem_range'] at hi
      omega
    rw [gD_listResize, if_pos hj, hdd.2 j hjd, hl2pt j]
    by_cases hz1 : j < start
    · rw [if_neg (by omega), hwlow j hz1,
        gD_append_left _ _ j (by simp only [List.length_append, hs2w]; omega),
        gD_append_left _ _ j (by rw [hs2w]; omega), gD_take _ _ _ hz1]
    · by_cases hz2 : j < start + items.length
      · rw [if_pos (by omega),
          gD_append_left _ _ j (by simp only [List.length_append, hs2w]; omega),
          gD_append_right _ _ j (by rw [hs2w]; omega), hs2w]
      · rw [if_neg (by omega), hwhigh j (by omega) (by omega),
          gD_append_right _ _ j (by simp only [List.length_append, hs2w]; omega),
          gD_drop]
        rw [if_pos (by simp only [List.length_append, hs2w]; omega)]
        congr 1
        simp only [List.length_append, hs2w]
        omega

/-- C6 counterexample: at a negative count the claim's
`clamp(count, 0, length - start)` formula says the splice proceeds with
`removed = 0` and the items inserted, but the code (array.rs lines
350-352) returns `Undefined` without touching the array: on `[1, 2]`
with `start = 1`, `count = -1`, item `"x"`, the source keeps `[1, 2]`
(not the claimed `[1, "x", 2]`) and no removed array is produced. -/
theorem splice_negative_count_unmutated :
    splice (arrayFromArgs [Value.number 1, Value.number 2]) 1 (some (-1))
        [Value.str "x"] true =
      (arrayFromArgs [Value.number 1, Value.number 2], none) ∧
    (splice (arrayFromArgs [Value.number 1, Value.number 2]) 1 (some (-1))
        [Value.str "x"] true).1.array ≠
      ArrayStorage.vector [Value.number 1, Value.str "x", Value.number 2] := by
  exact ⟨rfl, by decide⟩

/-- C6 (amended): when the count argument coerces to a non-negative
number, `splice(start, count, ...items)` removes
`removed = clamp(count, 0, length - start)` elements at the normalized
start, shifts the trailing tail by `(removed - items.len())` positions
(descending when the tail moves right, ascending when it moves left),
deletes now-unused indices beyond the new length, returns a new array of
the removed original elements, and mutates the source in place: the
source's element vector becomes `take start ++ items ++ drop (start +
removed)` with the corresponding new length.  When the count is
negative, `splice` instead returns `Undefined` and leaves the source
unmutated. -/
theorem splice_spec (o : ScriptObject) (vals : List Value) (startArg : Int)
    (countArg : Option Int) (items : List Value) (cs : Bool)
    (start toRemove : Nat)
    (hv : o.array = ArrayStorage.vector vals)
    (hstart : start = makeIndexAbsolute startArg vals.length)
    (hrem : toRemove = (max (min (countArg.getD ((vals.length : Int)))
        ((vals.length : Int) - (start : Int))) 0).toNat) :
    (0 ≤ countArg.getD ((vals.length : Int)) →
      (splice o startArg countArg items cs).1.array =
        ArrayStorage.vector
          (vals.take start ++ items ++ vals.drop (start + toRemove)) ∧
      objLength (splice o startArg countArg items cs).1 =
        vals.length + items.length - toRemove ∧
      ∃ rem, (splice o startArg countArg items cs).2 = some rem ∧
        rem.array = ArrayStorage.vector ((vals.drop start).take toRemove)) ∧
    (countArg.getD ((vals.length : Int)) < 0 →
      splice o startArg countArg items cs = (o, none)) := by
  have hsle : start ≤ vals.length := by
    rw [hstart]; exact makeIndexAbsolute_le _ _
  have htr : start + toRemove ≤ vals.length := by
    rw [hrem]; omega
  refine ⟨fun hc => ?_, fun hneg => ?_⟩
  case refine_2 =>
    simp only [splice, objLength_vector o vals hv, Int.ofNat_eq_coe]
    rw [if_pos hneg]
  have h1 : (splice o startArg countArg items cs).1.array =
      ArrayStorage.vector (vals.take start ++ items ++ vals.drop (start + toRemove)) := by
    simp only [splice, objLength_vector o vals hv, Int.ofNat_eq_coe]
    rw [← hstart, if_neg (not_lt.mpr hc), ← hrem]
    set newLength := vals.length + items.length - toRemove with hNL
    set offset := (toRemove : Int) - (items.length : Int) with hoffdef
    set s2 := start + items.length with hs2d
    dsimp only
    by_cases hneg : offset < 0
    · rw [if_pos hneg]
      have hSproj : ((((List.range' s2 (newLength - s2)).reverse).foldl
          (fun acc i =>
            (setArrayElement acc i (arrayElement acc (Int.toNat ((i : Int) + offset)))).1)
          o)).array =
          ArrayStorage.vector (((List.range' s2 (newLength - s2)).reverse).foldl
            (fun l i => vecWrite l i (gD l (Int.toNat ((i : Int) + offset)))) vals) :=
        foldlWrite_project _ (fun i => i)
          (fun acc i => arrayElement acc (Int.toNat ((i : Int) + offset)))
          (fun l i => gD l (Int.toNat ((i : Int) + offset)))
          (fun acc l i h => arrayElement_vector acc l _ h) o vals hv
      have hdd := shiftDesc_pointwise offset hneg (newLength - s2) s2 vals vals
        (by omega) (fun j _ => rfl)
      refine splice_tail_assembly _ _ vals items start toRemove cs hSproj hsle htr
        ?_ ?_ ?_
      · rw [hdd.1]
        by_cases hn0 : newLength - s2 = 0
        · rw [if_pos hn0]; omega
        · rw [if_neg hn0]; omega
      · intro j hjz
        rw [hdd.2 j, if_neg (by omega)]
      · intro j hj1 hj2
        rw [hdd.2 j, if_pos (by omega)]
        congr 1
        omega
    · rw [if_neg hneg]
      have hSproj : (((List.range' s2 (newLength - s2)).foldl
          (fun acc i =>
            (setArrayElement acc i (arrayElement acc (Int.toNat ((i : Int) + offset)))).1)
          o)).array =
          ArrayStorage.vector ((List.range' s2 (newLength - s2)).foldl
            (fun l i => vecWrite l i (gD l (Int.toNat ((i : Int) + offset)))) vals) :=
        foldlWrite_project _ (fun i => i)
          (fun acc i => arrayElement acc (Int.toNat ((i : Int) + offset)))
          (fun l i => gD l (Int.toNat ((i : Int) + offset)))
          (fun acc l i h => arrayElement_vector acc l _ h) o vals hv
      have hfeq : ((List.range' s2 (newLength - s2)).foldl
          (fun l i => vecWrite l i (gD l (Int.toNat ((i : Int) + offset)))) vals) =
          ((List.range' s2 (newLength - s2)).foldl
            (fun l i => vecWrite l i (gD l (i + offset.toNat))) vals) := by
        congr 1
        funext l i
        have h : Int.toNat ((i : Int) + offset) = i + offset.toNat := by omega
        rw [h]
      have haa := shiftAsc_pointwise offset.toNat (newLength - s2) s2 vals vals
        (fun j _ => rfl) (by omega)
      refine splice_tail_assembly _ _ vals items start toRemove cs hSproj hsle htr
        ?_ ?_ ?_
      · rw [hfeq, haa.1]
        omega
      · intro j hjz
        rw [hfeq, haa.2 j, if_neg (by omega)]
      · intro j hj1 hj2
        rw [hfeq, haa.2 j, if_pos (by omega)]
        congr 1
        omega
  refine ⟨h1, ?_, ?_⟩
  · rw [objLength_vector _ _ h1]
    simp only [List.length_append, List.length_take, List.length_drop]
    omega
  · simp only [splice, objLength_vector o vals hv, Int.ofNat_eq_coe]
    rw [← hstart, if_neg (not_lt.mpr hc), ← hrem]
    dsimp only
    refine ⟨_, rfl, ?_⟩
    have hrproj : (((List.range toRemove).foldl
        (fun r j => (setArrayElement r j (arrayElement o (start + j))).1)
        (newArrayObject 0))).array =
        ArrayStorage.vector ((List.range toRemove).foldl
          (fun l j => vecWrite l j (gD vals (start + j))) []) :=
      foldlWrite_project (List.range toRemove) (fun i => i)
        (fun _ j => arrayElement o (start + j)) (fun _ j => gD vals (start + j))
        (fun _ _ i _ => arrayElement_vector o vals (start + i) hv)
        (newArrayObject 0) [] rfl
    have hform : (List.range toRemove).foldl
        (fun l j => vecWrite l j (gD vals (start + j))) [] =
        (vals.drop start).take toRemove := by
      rw [rangeWrite_append, map_range_eq_drop_take vals start toRemove htr]
    rw [setLength_vector _ _ _ (by rw [hrproj, hform]),
      listResize_eq_self _ _ (by simp; omega)]

/-- C6 witness: `splice([1,2,3,4,5], start = 1, count = 2, "a","b","c")`
leaves the source as `[1,"a","b","c",4,5]` and returns removed `[2,3]`;
a negative count (`count = -3` on `[1,2]`) returns `Undefined` with the
source untouched. -/
theorem splice_spec_witness :
    ((splice (arrayFromArgs [Value.number 1, Value.number 2, Value.number 3,
        Value.number 4, Value.number 5]) 1 (some 2)
      [Value.str "a", Value.str "b", Value.str "c"] true).1.array =
      ArrayStorage.vector [Value.number 1, Value.str "a", Value.str "b", Value.str "c",
        Value.number 4, Value.number 5] ∧
    ∃ rem, (splice (arrayFromArgs [Value.number 1, Value.number 2, Value.number 3,
        Value.number 4, Value.number 5]) 1 (some 2)
      [Value.str "a", Value.str "b", Value.str "c"] true).2 = some rem ∧
      rem.array = ArrayStorage.vector [Value.number 2, Value.number 3]) ∧
    splice (arrayFromArgs [Value.number 1, Value.number 2]) 0 (some (-3)) [] true =
      (arrayFromArgs [Value.number 1, Value.number 2], none) := by
  have h := (splice_spec (arrayFromArgs [Value.number 1, Value.number 2, Value.number 3,
      Value.number 4, Value.number 5])
    [Value.number 1, Value.number 2, Value.number 3, Value.number 4, Value.number 5]
    1 (some 2) [Value.str "a", Value.str "b", Value.str "c"] true 1 2
    rfl (by decide) (by decide)).1 (by norm_num)
  have hneg := (splice_spec (arrayFromArgs [Value.number 1, Value.number 2])
    [Value.number 1, Value.number 2] 0 (some (-3)) [] true 0 0
    rfl (by decide) (by decide)).2 (by norm_num)
  refine ⟨⟨?_, ?_⟩, hneg⟩
  · have := h.1
    simpa using this
  · rcases h.2.2 with ⟨rem, hr1, hr2⟩
    exact ⟨rem, hr1, by simpa using hr2⟩

end Avm1
